import Mathlib

/-!
Verification of the hyperplane file manager's core logic against its
natural-language specification.

The Lean definitions below are a shallow embedding of the Python sources:

* `src/hyperplane/utils/tags.py` — the tag registry (`add_tags`,
  `remove_tags`, `move_tag`, `update_tags`),
* `src/hyperplane/navigation_bin.py` — the navigation history manager
  (`HypNavigationBin.new_page` and its `pushed`/`popped` signal handlers),
* `src/hyperplane/path_bar.py` — the breadcrumb path bar
  (`HypPathBar.update`, `append`, `remove`, `purge`).

Python strings are modelled as Lean `String` (file contents as `List Char`),
Python `None`-able values as `Option`, Python exceptions as an explicit
`PyErr` error value, and GTK/GIO external queries as oracle fields recorded
in the input structures.
-/

/-- Python exceptions that the modelled code can raise. -/
inductive PyErr where
  /-- Python `IndexError` (list index out of range, `list.pop` on empty). -/
  | indexError
  /-- Python `ValueError` (`list.index` on a missing element). -/
  | valueError
  /-- Python `UnboundLocalError` (reading a local variable never assigned). -/
  | unboundLocal
  /-- Python `AttributeError` (attribute access on `None`). -/
  | attributeError
deriving DecidableEq, Repr

/-- Gtk.FilterChange values used by `update_tags` as change-strictness hints. -/
inductive FilterChange where
  | different
  | moreStrict
  | lessStrict
deriving DecidableEq, Repr

/-- State of the tag registry: the in-memory ordered tag list `shared.tags`,
the last content written to the persistence file (`none` before any write),
and the list of `tags-changed` notifications emitted so far. -/
structure TagState where
  tags : List String
  fileContent : Option (List Char)
  emitted : List FilterChange
deriving DecidableEq, Repr

/-- Models `"\n".join(strs)` from `update_tags`, on `List Char`
representations of Python strings. -/
def joinNl : List (List Char) → List Char
  | [] => []
  | [t] => t
  | t :: ts => t ++ '\n' :: joinNl ts

/-- Models Python `s.split("\n")`: splits on every newline, never collapsing;
the empty string splits to a single empty piece. -/
def splitNl : List Char → List (List Char)
  | [] => [[]]
  | c :: cs =>
    match splitNl cs with
    | [] => [[c]]
    | g :: gs => if c = '\n' then [] :: g :: gs else (c :: g) :: gs

/-- The file content produced by `update_tags`:
`(shared.home_path / ".hyperplane").write_text("\n".join(shared.tags))`. -/
def writeTagsFile (tags : List String) : List Char :=
  joinNl (tags.map String.toList)

/-- Modelled from the spec: the external startup loader of the tag
persistence file is not under `src/`; per the spec it reads the file once
and splits the content on newlines to recover the ordered tag list. -/
def loadTags (content : List Char) : List String :=
  (splitNl content).map fun cs => ⟨cs⟩

/-- Models `update_tags(change)`: rewrites the whole persistence file from
`shared.tags` and emits a `tags-changed` notification with `change`. -/
def updateTags (st : TagState) (change : FilterChange) : TagState :=
  { st with
    fileContent := some (writeTagsFile st.tags)
    emitted := st.emitted ++ [change] }

/-- Models `add_tags(*tags)`: appends every argument to `shared.tags`
unconditionally (the docstring places validity on the caller), then calls
`update_tags(Gtk.FilterChange.MORE_STRICT)`. -/
def addTags (st : TagState) (newTags : List String) : TagState :=
  updateTags { st with tags := st.tags ++ newTags } .moreStrict

/-- Models `remove_tags(*tags)`: for each argument present in `shared.tags`,
removes its first occurrence, then calls
`update_tags(Gtk.FilterChange.LESS_STRICT)`. -/
def removeTags (st : TagState) (remTags : List String) : TagState :=
  updateTags
    { st with
      tags := remTags.foldl (fun acc t => if t ∈ acc then acc.erase t else acc) st.tags }
    .lessStrict

/-- Models Python `list.index` as an option: the first index of `t`, or
`none` where Python raises `ValueError`. -/
def pyIndex : List String → String → Option Nat
  | [], _ => none
  | x :: xs, t => if x = t then some 0 else (pyIndex xs t).map (· + 1)

/-- Models the simultaneous assignment
`tags[i], tags[j] = (tags[j], tags[i])`: both right-hand sides are read
from the old list, then both cells are written. -/
def pySwap (l : List String) (i j : Nat) : List String :=
  (l.set i (l.getD j "")).set j (l.getD i "")

/-- Models `move_tag(tag, up)`. Returns the resulting state together with
the exception raised, if any; on an exception the state is returned
unchanged, as the raise happens before any mutation in the source. -/
def moveTag (st : TagState) (tag : String) (up : Bool) : TagState × Option PyErr :=
  if up then
    match st.tags.head? with
    | none => (st, some .indexError)
    | some h =>
      if h = tag then (st, none)
      else
        match pyIndex st.tags tag with
        | none => (st, some .valueError)
        | some i =>
          (updateTags { st with tags := pySwap st.tags i (i - 1) } .different, none)
  else
    match st.tags.getLast? with
    | none => (st, some .indexError)
    | some g =>
      if g = tag then (st, none)
      else
        match pyIndex st.tags tag with
        | none => (st, some .valueError)
        | some i =>
          (updateTags { st with tags := pySwap st.tags i (i + 1) } .different, none)

/-- A `HypItemsPage` as far as navigation is concerned: a unique object
identity `pid` (Python object identity), plus the page's `gfile` (modelled
by its URI, the only thing `new_page` reads from it) and its `tags` list.
Exactly one of the two is set for pages the code constructs. -/
structure Page where
  pid : Nat
  gfile : Option String
  tags : Option (List String)
deriving DecidableEq, Repr

/-- State of a `HypNavigationBin`: the `AdwNavigationView` navigation stack
(last element is the visible page), the `next_pages` forward buffer, and a
counter supplying fresh object identities for newly constructed pages. -/
structure NavState where
  stack : List Page
  nextPages : List Page
  nextPid : Nat
deriving DecidableEq, Repr

/-- Models the `__pushed` signal handler: runs after every push, with the
just-pushed page visible. If the forward buffer is non-empty and the pushed
page is (identical to) its top, pop it off; otherwise discard the whole
forward buffer. -/
def pushedHandler (s : NavState) : NavState :=
  match s.stack.getLast? with
  | none => s
  | some page =>
    if s.nextPages = [] then s
    else if s.nextPages.getLast? = some page then
      { s with nextPages := s.nextPages.dropLast }
    else
      { s with nextPages := [] }

/-- Models `self.view.push(page)` followed by the emission of the `pushed`
signal handled by `__pushed`. -/
def pushPage (s : NavState) (p : Page) : NavState :=
  pushedHandler { s with stack := s.stack ++ [p] }

/-- Models a back navigation: `AdwNavigationView.pop` (a no-op when the
stack has at most one page) followed by the `popped` signal handled by
`__popped`, which appends the popped page to the forward buffer. -/
def goBack (s : NavState) : NavState :=
  if s.stack.length ≤ 1 then s
  else
    match s.stack.getLast? with
    | none => s
    | some page =>
      { s with stack := s.stack.dropLast, nextPages := s.nextPages ++ [page] }

/-- Shared tail of the `tag` branch of `new_page` once the combined tag
list has been computed: reuse the forward-buffer top if its tags equal the
new list, otherwise construct and push a fresh page. -/
def newPageWithTags (s : NavState) (newTags : List String) : NavState :=
  match s.nextPages.getLast? with
  | some np =>
    if np.tags = some newTags then pushPage s np
    else
      pushPage { s with nextPid := s.nextPid + 1 } ⟨s.nextPid, none, some newTags⟩
  | none =>
    pushPage { s with nextPid := s.nextPid + 1 } ⟨s.nextPid, none, some newTags⟩

/-- The `elif tag:` branch of `new_page`, reached when both `gfile` and
`tags` are falsy: extends the visible page's tag list (or starts a fresh
one) with `tag`, returning the state unchanged when `tag` is already shown
or when `tag` is `None` (the final `else: return`). -/
def newPageTagBranch (s : NavState) (page : Page) (tag : Option String) : NavState :=
  match tag with
  | some t =>
    match page.tags with
    | some pt =>
      if pt ≠ [] then
        if t ∈ pt then s else newPageWithTags s (pt ++ [t])
      else newPageWithTags s [t]
    | none => newPageWithTags s [t]
  | none => s

/-- Models `HypNavigationBin.new_page(gfile, tag, tags)`. The stack must be
non-empty, as the source reads attributes of `get_visible_page()`
(otherwise Python raises `AttributeError` on `None`). `AdwNavigationView.add`
only registers a page with the view and is not modelled separately. -/
def newPage (s : NavState) (gfile : Option String) (tag : Option String)
    (tags : Option (List String)) : Except PyErr NavState :=
  match s.stack.getLast? with
  | none => .error .attributeError
  | some page =>
    match gfile with
    | some u =>
      if page.gfile = some u then .ok s
      else
        match s.nextPages.getLast? with
        | some np =>
          if np.gfile = some u then .ok (pushPage s np)
          else .ok (pushPage { s with nextPid := s.nextPid + 1 } ⟨s.nextPid, some u, none⟩)
        | none =>
          .ok (pushPage { s with nextPid := s.nextPid + 1 } ⟨s.nextPid, some u, none⟩)
    | none =>
      match tags with
      | some l =>
        if l ≠ [] then
          if page.tags = some l then .ok s
          else
            match s.nextPages.getLast? with
            | some np =>
              if np.tags = some l then .ok (pushPage s np)
              else .ok (pushPage { s with nextPid := s.nextPid + 1 } ⟨s.nextPid, none, some l⟩)
            | none =>
              .ok (pushPage { s with nextPid := s.nextPid + 1 } ⟨s.nextPid, none, some l⟩)
        else .ok (newPageTagBranch s page tag)
      | none => .ok (newPageTagBranch s page tag)

/-- Constructor arguments of a `HypPathSegment`: the tuple
`(label, icon_name, uri, tag)` that `update` builds and `append` receives. -/
structure SegSpec where
  label : Option String
  icon : Option String
  uri : Option String
  tag : Option String
deriving DecidableEq, Repr

/-- A displayed `HypPathSegment` widget: an object identity `sid`, the
constructor arguments, the `active` flag, and whether a separator revealer
was created alongside it (`self.separators[segment] is not None`). -/
structure Segment where
  sid : Nat
  label : Option String
  icon : Option String
  uri : Option String
  tag : Option String
  active : Bool
  hasSep : Bool
deriving DecidableEq, Repr

/-- State of a `HypPathBar`: the `segments` list, the `tags` mode flag, and
a counter supplying fresh object identities for newly created widgets. -/
structure PathBar where
  segments : List Segment
  tags : Bool
  nextId : Nat
deriving DecidableEq, Repr

/-- Observable effects of one `update` call: the segments removed (in pop
order), the constructor arguments of the segments appended (in order), and
whether a resolution failure was logged. -/
structure BarTrace where
  removed : List Segment
  appended : List SegSpec
  logged : Bool
deriving DecidableEq, Repr

/-- Models the active-flag repair
`self.segments[-1].active = True; self.segments[-2].active = False` under a
`try`/`except IndexError`: on an empty list nothing happens, on a singleton
only the last flag is set before the `[-2]` access raises. -/
def repairActive : List Segment → List Segment
  | [] => []
  | [a] => [{ a with active := true }]
  | [b, a] => [{ b with active := false }, { a with active := true }]
  | x :: rest => x :: repairActive rest

/-- Models `list.pop()`: removes and returns the last element, `none` where
Python raises `IndexError` on an empty list. -/
def popLast : List Segment → Option (List Segment × Segment)
  | [] => none
  | [s] => some ([], s)
  | s :: rest =>
    match popLast rest with
    | some (r, l) => some (s :: r, l)
    | none => none

/-- The `for _index in range(n)` loop of `HypPathBar.remove`: pops `n`
segments off the end, returning the remaining list, the popped segments in
pop order, and whether the loop was left by the early `return` taken when a
popped segment has no separator. -/
def removeLoop : Nat → List Segment → Except PyErr (List Segment × List Segment × Bool)
  | 0, segs => .ok (segs, [], false)
  | n + 1, segs =>
    match popLast segs with
    | none => .error .indexError
    | some (rest, child) =>
      if child.hasSep then
        match removeLoop n rest with
        | .ok (r, rem, e) => .ok (r, child :: rem, e)
        | .error err => .error err
      else .ok (rest, [child], true)

/-- Models `HypPathBar.remove(n)`: the pop loop, then — unless the early
`return` fired or the bar is in tag mode — the active-flag repair. -/
def removeSegs (bar : PathBar) (n : Nat) : Except PyErr (PathBar × List Segment) :=
  match removeLoop n bar.segments with
  | .error e => .error e
  | .ok (segs, removed, early) =>
    if early then .ok ({ bar with segments := segs }, removed)
    else if bar.tags then .ok ({ bar with segments := segs }, removed)
    else .ok ({ bar with segments := repairActive segs }, removed)

/-- Models `HypPathBar.append(label, icon_name, uri, tag)`: a separator is
created only when the list was non-empty, the new segment is appended, and
in path mode the last segment is activated and the second-to-last
deactivated. -/
def appendSeg (bar : PathBar) (spec : SegSpec) : PathBar :=
  let seg : Segment :=
    ⟨bar.nextId, spec.label, spec.icon, spec.uri, spec.tag, false, !bar.segments.isEmpty⟩
  if bar.tags then
    { bar with segments := bar.segments ++ [seg], nextId := bar.nextId + 1 }
  else
    { bar with segments := repairActive (bar.segments ++ [seg]), nextId := bar.nextId + 1 }

/-- Models `HypPathBar.purge()`: removes every segment without animation. -/
def purgeBar (bar : PathBar) : PathBar :=
  { bar with segments := [] }

/-- The tag-mode segment tuples built by `update`:
`tuple((tag, "", None, tag) for tag in tags)`. -/
def tagSpecs (tags : List String) : List SegSpec :=
  tags.map fun t => ⟨some t, some "", none, some t⟩

/-- The diff loop of `HypPathBar.update`: walks the new segment tuples,
skipping those whose target URI and tag both match the displayed segment at
the same index; at the first mismatch removes every displayed segment from
that index on and appends all remaining tuples. -/
def diffLoop : PathBar → Nat → Bool → List SegSpec →
    Except PyErr (PathBar × List Segment × List SegSpec)
  | bar, _, _, [] => .ok (bar, [], [])
  | bar, idx, app, spec :: rest =>
    let matched : Bool :=
      !app &&
        match bar.segments[idx]? with
        | some o => spec.uri == o.uri && spec.tag == o.tag
        | none => false
    if matched then diffLoop bar (idx + 1) false rest
    else
      let step : Except PyErr (PathBar × List Segment) :=
        if app then .ok (bar, []) else removeSegs bar (bar.segments.length - idx)
      match step with
      | .error e => .error e
      | .ok (bar₁, removed₁) =>
        match diffLoop (appendSeg bar₁ spec) (idx + 1) true rest with
        | .error e => .error e
        | .ok (bar₃, removed₂, appended) =>
          .ok (bar₃, removed₁ ++ removed₂, spec :: appended)

/-- The shared tail of `HypPathBar.update` after the new segment tuples are
known: the initial length trim followed by the diff loop. -/
def applyDiff (bar : PathBar) (specs : List SegSpec) (logged : Bool) :
    Except PyErr (PathBar × BarTrace) :=
  let step : Except PyErr (PathBar × List Segment) :=
    if specs.length < bar.segments.length then
      removeSegs bar (bar.segments.length - specs.length)
    else .ok (bar, [])
  match step with
  | .error e => .error e
  | .ok (bar₁, removed₀) =>
    match diffLoop bar₁ 0 false specs with
    | .error e => .error e
    | .ok (bar₂, removed₁, appended) =>
      .ok (bar₂, ⟨removed₀ ++ removed₁, appended, logged⟩)

/-- Result of the GIO `query_info` call on the scheme root. -/
structure SchemeInfo where
  displayName : String
  symbolicIcon : String
deriving DecidableEq, Repr

/-- Result of `find_enclosing_mount` plus the fields read from the mount. -/
structure MountInfo where
  name : String
  symbolicIcon : String
  uri : String
deriving DecidableEq, Repr

/-- A `Gio.File` as `update` observes it. `scheme` and `parseParts` record
what the Python stdlib computes from the URI (`urlparse(uri).scheme` and
`unquote(urlparse(uri).path).split(sep)`); `path` records
`Path(gfile.get_path()).parts`, `none` when `get_path()` is falsy. The two
query fields are oracles for the GIO calls, `none` modelling a raised
`GLib.Error`. -/
structure GFileModel where
  uri : String
  scheme : String
  parseParts : List String
  path : Option (List String)
  schemeRootQuery : Option SchemeInfo
  mountQuery : Option MountInfo
deriving DecidableEq, Repr

/-- The process-wide shared state `update` reads: `shared.home_path.parts`
and `shared.home.get_uri()`. -/
structure Ctx where
  homeParts : List String
  homeUri : String
deriving DecidableEq, Repr

/-- Models Python f-string interpolation of a `None`-able string:
`f"{x}"` renders `None` as the literal text "None". -/
def fStr : Option String → String
  | some s => s
  | none => "None"

/-- Models `sep.join(strs)` with the POSIX separator. -/
def joinSep : List String → String
  | [] => ""
  | [x] => x
  | x :: xs => x ++ "/" ++ joinSep xs

/-- Models `Path(path.anchor if path else sep).as_uri()`: on POSIX the
anchor of an absolute path and the bare separator are both "/", whose URI
form is "file:///". -/
def anchorUri (_p : Option (List String)) : String :=
  "file:///"

/-- The `for index, part in enumerate(parts)` loop of `update`: every
non-empty part becomes a tuple `(part, "", base_uri + sep.join(parts up to
and including the part), None)`. -/
def partSegsFrom (baseUriStr : String) (parts : List String) : Nat → List String → List SegSpec
  | _, [] => []
  | idx, part :: rest =>
    if part = "" then partSegsFrom baseUriStr parts (idx + 1) rest
    else
      ⟨some part, some "", some (baseUriStr ++ joinSep (parts.take (idx + 1))), none⟩
        :: partSegsFrom baseUriStr parts (idx + 1) rest

/-- The segment tuples built from the path parts of a location. -/
def partSegs (baseUriStr : String) (parts : List String) : List SegSpec :=
  partSegsFrom baseUriStr parts 0 parts

/-- The path-mode segment computation of `HypPathBar.update`: base
resolution (local scheme, else scheme root query, else enclosing mount,
else a logged failure with no base), the per-part tuples, the home
replacement, the local root segment, and the base insertion. Returns the
tuples to display and whether a resolution failure was logged. -/
def computeSpecs (ctx : Ctx) (g : GFileModel) : List SegSpec × Bool :=
  let schemeUri := g.scheme ++ "://"
  let resolved : Option String × Option String × Option String × Bool :=
    if g.scheme = "file" then (none, none, some schemeUri, false)
    else
      match g.schemeRootQuery with
      | some info => (some info.displayName, some info.symbolicIcon, some schemeUri, false)
      | none =>
        match g.mountQuery with
        | some m => (some m.name, some m.symbolicIcon, some m.uri, false)
        | none => (none, none, none, true)
  let logged := resolved.2.2.2
  let segs := partSegs (fStr resolved.2.2.1) g.parseParts
  let afterHome : List SegSpec × Option String × Option String × Option String :=
    match g.path with
    | some p =>
      if p = ctx.homeParts ∨ ctx.homeParts.isPrefixOf p then
        (segs.drop (ctx.homeParts.length - 1), some "Home", some "user-home-symbolic",
          some ctx.homeUri)
      else if g.scheme = "file" then
        (segs, some "", some "drive-harddisk-symbolic", some (anchorUri g.path))
      else (segs, resolved.1, resolved.2.1, resolved.2.2.1)
    | none =>
      if g.scheme = "file" then
        (segs, some "", some "drive-harddisk-symbolic", some (anchorUri g.path))
      else (segs, resolved.1, resolved.2.1, resolved.2.2.1)
  match afterHome.2.2.2 with
  | some b =>
    if b ≠ "" then (⟨afterHome.2.1, afterHome.2.2.1, some b, none⟩ :: afterHome.1, logged)
    else (afterHome.1, logged)
  | none => (afterHome.1, logged)

/-- Models `HypPathBar.update(gfile, tags)`. The `tags` iterable is
represented by a list, the empty list standing for both `None` and an empty
iterable (identical truthiness in the source). When both arguments are
falsy the source falls through both branches and reads the never-assigned
local `segments`, raising `UnboundLocalError` before touching any state. -/
def updateBar (ctx : Ctx) (bar : PathBar) (g? : Option GFileModel) (tags : List String) :
    Except PyErr (PathBar × BarTrace) :=
  match g? with
  | some g =>
    let bar₁ := if bar.tags then purgeBar bar else bar
    let bar₂ := { bar₁ with tags := false }
    let sp := computeSpecs ctx g
    applyDiff bar₂ sp.1 sp.2
  | none =>
    if tags ≠ [] then
      let bar₁ := if !bar.tags then purgeBar bar else bar
      let bar₂ := { bar₁ with tags := true }
      applyDiff bar₂ (tagSpecs tags) false
    else .error .unboundLocal

/-- Separator bookkeeping invariant of a displayed segment list: the first
segment was appended to an empty bar (no separator), every later one got a
separator. -/
def sepFlagsOk : List Segment → Bool
  | [] => true
  | s :: rest => !s.hasSep && rest.all (·.hasSep)

/-- Active-flag invariant of a path-mode segment list: exactly the final
segment is marked active. -/
def activeOk : List Segment → Bool
  | [] => true
  | [s] => s.active
  | s :: rest => !s.active && activeOk rest

/-- The comparison key the diff loop reads from a displayed segment. -/
def segKey (s : Segment) : Option String × Option String :=
  (s.uri, s.tag)

/-- The comparison key the diff loop reads from a new segment tuple. -/
def specKey (t : SegSpec) : Option String × Option String :=
  (t.uri, t.tag)

/-- Length of the longest shared prefix of a displayed segment list and a
new tuple list, where corresponding entries have identical URI target and
tag target. -/
def cpl : List Segment → List SegSpec → Nat
  | s :: ss, t :: ts => if segKey s = specKey t then cpl ss ts + 1 else 0
  | _, _ => 0

/-- Everything that identifies a displayed segment except its mutable
active flag. -/
abbrev SegDatum :=
  Nat × Option String × Option String × Option String × Option String × Bool

/-- The identity-relevant data of a displayed segment. -/
def segData (s : Segment) : SegDatum :=
  (s.sid, s.label, s.icon, s.uri, s.tag, s.hasSep)

/-- The data of the segments freshly created by appending the given tuples
to a bar holding `startPos` segments, with object identities starting at
`startId`. -/
def freshData : Nat → Nat → List SegSpec → List SegDatum
  | _, _, [] => []
  | i, p, t :: ts =>
    (i, t.label, t.icon, t.uri, t.tag, decide (p ≠ 0)) :: freshData (i + 1) (p + 1) ts

/-- Weakening of `activeOk` closed under taking prefixes: every segment
except possibly the last is inactive. -/
def frontInactive : List Segment → Bool
  | [] => true
  | [_] => true
  | s :: rest => !s.active && frontInactive rest

/-- The minimal-prefix-diff outcome of one update on a bar displaying
`bar.segments` when the newly computed tuple list is `specs`: the call
succeeds; it removes exactly the displayed segments beyond the longest
shared prefix `cpl bar.segments specs` (matched on URI target and tag
target) and appends exactly the new tuples beyond that prefix; the
shared-prefix segments keep their identity and data; and freshly created
segments account for the whole suffix. -/
def diffOutcome (bar : PathBar) (specs : List SegSpec) (logged : Bool)
    (res : Except PyErr (PathBar × BarTrace)) : Prop :=
  ∃ segs' removedSegs,
    res = .ok (⟨segs', bar.tags, bar.nextId + (specs.length - cpl bar.segments specs)⟩,
      ⟨removedSegs, specs.drop (cpl bar.segments specs), logged⟩) ∧
    removedSegs.map segData = ((bar.segments.drop (cpl bar.segments specs)).map segData).reverse ∧
    segs'.map segData =
      (bar.segments.take (cpl bar.segments specs)).map segData ++
        freshData bar.nextId (cpl bar.segments specs)
          (specs.drop (cpl bar.segments specs))

/-! ### Supporting lemmas about the tag registry -/

theorem pyIndex_eq_none_of_not_mem {l : List String} {t : String} (h : t ∉ l) :
    pyIndex l t = none := by
  induction l with
  | nil => rfl
  | cons x xs ih =>
    simp only [List.mem_cons, not_or] at h
    simp [pyIndex, Ne.symm h.1, ih h.2]

theorem pyIndex_getElem? {l : List String} {t : String} {i : Nat}
    (h : pyIndex l t = some i) : l[i]? = some t := by
  induction l generalizing i with
  | nil => simp [pyIndex] at h
  | cons x xs ih =>
    by_cases hx : x = t
    · simp [pyIndex, hx] at h
      subst h
      simp [hx]
    · simp only [pyIndex, if_neg hx, Option.map_eq_some'] at h
      obtain ⟨j, hj, rfl⟩ := h
      simpa using ih hj

theorem pyIndex_lt_length {l : List String} {t : String} {i : Nat}
    (h : pyIndex l t = some i) : i < l.length := by
  have := pyIndex_getElem? h
  exact (List.getElem?_eq_some.mp this).1

theorem pyIndex_pos_of_head_ne {x : String} {xs : List String} {t : String} {i : Nat}
    (hx : x ≠ t) (h : pyIndex (x :: xs) t = some i) : 1 ≤ i := by
  simp only [pyIndex, if_neg hx, Option.map_eq_some'] at h
  obtain ⟨j, _, rfl⟩ := h
  omega

theorem pyIndex_succ_lt_of_getLast_ne {l : List String} {t g : String} {i : Nat}
    (hl : l.getLast? = some g) (hg : g ≠ t) (h : pyIndex l t = some i) :
    i + 1 < l.length := by
  have hlt := pyIndex_lt_length h
  rcases Nat.lt_or_ge (i + 1) l.length with h' | h'
  · exact h'
  · exfalso
    have hi : i = l.length - 1 := by omega
    have hget := pyIndex_getElem? h
    rw [List.getLast?_eq_getElem?] at hl
    rw [hi] at hget
    rw [hget] at hl
    exact hg (by simpa using hl.symm)

theorem pySwap_up_perm (l : List String) (j : Nat) (h : j + 1 < l.length) :
    (pySwap l (j + 1) j).Perm l := by
  induction l generalizing j with
  | nil => simp at h
  | cons x xs ih =>
    cases j with
    | zero =>
      match xs, h with
      | y :: ys, _ =>
        simp only [pySwap, List.getD_cons_zero, List.getD_cons_succ, List.set_cons_succ,
          List.set_cons_zero]
        exact List.Perm.swap x y ys
    | succ k =>
      have h' : k + 1 < xs.length := by simpa using Nat.lt_of_succ_lt_succ h
      simp only [pySwap, List.getD_cons_succ, List.set_cons_succ]
      exact (ih k h').cons x

theorem pySwap_down_perm (l : List String) (j : Nat) (h : j + 1 < l.length) :
    (pySwap l j (j + 1)).Perm l := by
  induction l generalizing j with
  | nil => simp at h
  | cons x xs ih =>
    cases j with
    | zero =>
      match xs, h with
      | y :: ys, _ =>
        simp only [pySwap, List.getD_cons_zero, List.getD_cons_succ, List.set_cons_succ,
          List.set_cons_zero]
        exact List.Perm.swap x y ys
    | succ k =>
      have h' : k + 1 < xs.length := by simpa using Nat.lt_of_succ_lt_succ h
      simp only [pySwap, List.getD_cons_succ, List.set_cons_succ]
      exact (ih k h').cons x

theorem splitNl_ne_nil (cs : List Char) : splitNl cs ≠ [] := by
  cases cs with
  | nil => simp [splitNl]
  | cons c rest =>
    simp only [splitNl]
    cases h : splitNl rest with
    | nil => simp
    | cons g gs =>
      by_cases hc : c = '\n' <;> simp [hc]

theorem splitNl_of_not_mem {t : List Char} (h : '\n' ∉ t) : splitNl t = [t] := by
  induction t with
  | nil => rfl
  | cons c cs ih =>
    simp only [List.mem_cons, not_or] at h
    have hc : ¬ c = '\n' := fun hh => h.1 hh.symm
    simp only [splitNl, ih h.2, if_neg hc]

theorem splitNl_append {t r : List Char} (h : '\n' ∉ t) :
    splitNl (t ++ '\n' :: r) = t :: splitNl r := by
  induction t with
  | nil =>
    simp only [List.nil_append, splitNl]
    cases hr : splitNl r with
    | nil => exact absurd hr (splitNl_ne_nil r)
    | cons g gs => simp
  | cons c cs ih =>
    simp only [List.mem_cons, not_or] at h
    have hc : ¬ c = '\n' := fun hh => h.1 hh.symm
    simp only [List.cons_append, splitNl, List.append_eq, ih h.2, if_neg hc]

theorem splitNl_joinNl {cs : List (List Char)} (h0 : cs ≠ [])
    (h : ∀ c ∈ cs, '\n' ∉ c) : splitNl (joinNl cs) = cs := by
  induction cs with
  | nil => exact absurd rfl h0
  | cons t ts ih =>
    cases ts with
    | nil => simpa [joinNl] using splitNl_of_not_mem (h t (by simp))
    | cons t' ts' =>
      have hj : joinNl (t :: t' :: ts') = t ++ '\n' :: joinNl (t' :: ts') := rfl
      rw [hj, splitNl_append (h t (by simp)),
        ih (by simp) (fun c hc => h c (List.mem_cons_of_mem t hc))]

theorem loadTags_writeTagsFile {l : List String} (h0 : l ≠ [])
    (h : ∀ t ∈ l, '\n' ∉ t.toList) : loadTags (writeTagsFile l) = l := by
  unfold loadTags writeTagsFile
  rw [splitNl_joinNl (by simpa using h0) ?memh]
  case memh =>
    intro c hc
    rw [List.mem_map] at hc
    obtain ⟨t, ht, rfl⟩ := hc
    exact h t ht
  rw [List.map_map]
  have hmk : ∀ s : String, (⟨s.toList⟩ : String) = s := fun _ => rfl
  calc l.map ((fun cs => (⟨cs⟩ : String)) ∘ String.toList)
      = l.map id := List.map_congr_left (fun t _ => hmk t)
    _ = l := List.map_id l

theorem foldl_erase_nodup (rem : List String) :
    ∀ l : List String, l.Nodup →
      (rem.foldl (fun acc t => if t ∈ acc then acc.erase t else acc) l).Nodup := by
  induction rem with
  | nil => intro l hl; exact hl
  | cons r rs ih =>
    intro l hl
    simp only [List.foldl_cons]
    by_cases hr : r ∈ l
    · simp only [if_pos hr]
      exact ih _ (hl.erase r)
    · simp only [if_neg hr]
      exact ih _ hl

theorem mem_of_getLast?_eq {α : Type} {l : List α} {a : α}
    (h : l.getLast? = some a) : a ∈ l := by
  obtain ⟨hne, heq⟩ := List.mem_getLast?_eq_getLast (Option.mem_def.mpr h)
  rw [heq]
  exact List.getLast_mem hne

/-! ### Claim theorems about the tag registry -/

/-- C10: `move_tag` called with a tag that is not in the tag list — and in
particular with any tag when the list is empty — raises a lookup error
(`IndexError` on the empty list, `ValueError` otherwise) before any
mutation: the state, including the in-memory list, the persistence file and
the emitted notifications, is returned unchanged. -/
theorem moveTag_absent_raises_before_mutation (st : TagState) (t : String) (up : Bool)
    (h : t ∉ st.tags) :
    moveTag st t up =
      (st, some (if st.tags = [] then PyErr.indexError else PyErr.valueError)) := by
  rcases st with ⟨tags, fc, em⟩
  cases tags with
  | nil => cases up <;> rfl
  | cons x xs =>
    simp only [List.mem_cons, not_or] at h
    have hx : ¬ x = t := fun hh => h.1 hh.symm
    have hnone : pyIndex (x :: xs) t = none :=
      pyIndex_eq_none_of_not_mem (by simp [not_or, h.1, h.2])
    cases up with
    | true =>
      simp [moveTag, hx, hnone]
    | false =>
      obtain ⟨g, hg⟩ := Option.isSome_iff_exists.mp
        (List.getLast?_isSome.mpr (List.cons_ne_nil x xs))
      have hgm : g ∈ x :: xs := mem_of_getLast?_eq hg
      have hgt : ¬ g = t := by
        intro hh
        subst hh
        rcases List.mem_cons.mp hgm with h1 | h2
        · exact hx h1.symm
        · exact h.2 h2
      simp [moveTag, hg, hgt, hnone]

/-- C10 witness. -/
theorem moveTag_absent_raises_before_mutation_witness :
    ("a" ∉ (⟨["b"], none, []⟩ : TagState).tags) ∧
    moveTag ⟨["b"], none, []⟩ "a" false =
      (⟨["b"], none, []⟩,
        some (if (⟨["b"], none, []⟩ : TagState).tags = [] then PyErr.indexError
          else PyErr.valueError)) :=
  ⟨by decide, moveTag_absent_raises_before_mutation ⟨["b"], none, []⟩ "a" false (by decide)⟩

/-- C3 counterexample: `add_tags` does not check for presence — adding a tag
that is already in the registry appends it again, breaking deduplication. -/
theorem addTags_appends_present_tag :
    (addTags ⟨["a"], none, []⟩ ["a"]).tags = ["a", "a"] ∧
    ¬ (addTags ⟨["a"], none, []⟩ ["a"]).tags.Nodup := by
  exact ⟨rfl, by decide⟩

/-- C3 amended: `add_tags` appends its arguments unconditionally (validity
is the caller's responsibility per its docstring), so the registry stays
deduplicated only when each add passes pairwise-distinct tags that are not
already present; `remove_tags` and `move_tag` always preserve
deduplication. -/
theorem tagRegistry_dedup_preserved :
    (∀ (st : TagState) (new : List String), st.tags.Nodup → new.Nodup →
      (∀ t ∈ new, t ∉ st.tags) → (addTags st new).tags.Nodup) ∧
    (∀ (st : TagState) (rem : List String), st.tags.Nodup →
      (removeTags st rem).tags.Nodup) ∧
    (∀ (st : TagState) (t : String) (up : Bool), st.tags.Nodup →
      (moveTag st t up).1.tags.Nodup) := by
  refine ⟨?add, ?rem, ?mov⟩
  case add =>
    intro st new h1 h2 h3
    simp only [addTags, updateTags]
    exact h1.append h2 (fun a ha hb => h3 a hb ha)
  case rem =>
    intro st rem h1
    simp only [removeTags, updateTags]
    exact foldl_erase_nodup rem st.tags h1
  case mov =>
    intro st t up h1
    cases up with
    | false =>
      simp only [moveTag, Bool.false_eq_true, if_false]
      cases hlast : st.tags.getLast? with
      | none => exact h1
      | some g =>
        by_cases hgt : g = t
        · simp [hgt, h1]
        · simp only [if_neg hgt]
          cases hidx : pyIndex st.tags t with
          | none => exact h1
          | some i =>
            have hlt : i + 1 < st.tags.length :=
              pyIndex_succ_lt_of_getLast_ne hlast hgt hidx
            simpa [updateTags] using
              ((pySwap_down_perm st.tags i hlt).nodup_iff).mpr h1
    | true =>
      simp only [moveTag, if_true]
      cases hhead : st.tags.head? with
      | none => exact h1
      | some x =>
        by_cases hxt : x = t
        · simp [hxt, h1]
        · simp only [if_neg hxt]
          cases hidx : pyIndex st.tags t with
          | none => exact h1
          | some i =>
            obtain ⟨xs, hxs⟩ : ∃ xs, st.tags = x :: xs := by
              cases hl : st.tags with
              | nil => rw [hl] at hhead; simp [List.head?] at hhead
              | cons y ys =>
                rw [hl] at hhead
                simp [List.head?] at hhead
                exact ⟨ys, by rw [hhead]⟩
            have hpos : 1 ≤ i := by
              apply pyIndex_pos_of_head_ne hxt
              rw [← hxs]; exact hidx
            obtain ⟨j, rfl⟩ : ∃ j, i = j + 1 := ⟨i - 1, by omega⟩
            have hlt : j + 1 < st.tags.length := pyIndex_lt_length hidx
            have hswap := pySwap_up_perm st.tags j hlt
            simp only [Nat.add_sub_cancel]
            simpa [updateTags] using (hswap.nodup_iff).mpr h1

/-- C3 amended witness. -/
theorem tagRegistry_dedup_preserved_witness :
    ((⟨["a"], none, []⟩ : TagState).tags.Nodup ∧ (["b"] : List String).Nodup ∧
      (∀ t ∈ (["b"] : List String), t ∉ (⟨["a"], none, []⟩ : TagState).tags)) ∧
    (addTags ⟨["a"], none, []⟩ ["b"]).tags.Nodup :=
  ⟨⟨by decide, by decide, by decide⟩,
    tagRegistry_dedup_preserved.1 ⟨["a"], none, []⟩ ["b"] (by decide) (by decide) (by decide)⟩

/-- C5 counterexample: writing the empty tag list produces an empty file,
which newline-splitting reloads as a single empty tag, not as the empty
list — the round trip fails on the empty registry. -/
theorem updateTags_empty_roundTrip_fails :
    (updateTags ⟨[], none, []⟩ .different).fileContent = some (writeTagsFile []) ∧
    loadTags (writeTagsFile []) = [""] ∧ ([""] : List String) ≠ [] :=
  ⟨rfl, rfl, by decide⟩

/-- C5 amended: for every non-empty in-memory tag list whose tags contain
no newline, the content `update_tags` writes (newline-joined), reloaded by
splitting on newlines, reproduces exactly the same ordered list with no
trailing-empty-entry artifacts. -/
theorem updateTags_roundTrip (st : TagState) (ch : FilterChange)
    (h0 : st.tags ≠ []) (h : ∀ t ∈ st.tags, '\n' ∉ t.toList) :
    (updateTags st ch).fileContent = some (writeTagsFile st.tags) ∧
    loadTags (writeTagsFile st.tags) = st.tags :=
  ⟨rfl, loadTags_writeTagsFile h0 h⟩

/-- C5 amended witness. -/
theorem updateTags_roundTrip_witness :
    ((⟨["a", "b"], none, []⟩ : TagState).tags ≠ [] ∧
      (∀ t ∈ (⟨["a", "b"], none, []⟩ : TagState).tags, '\n' ∉ t.toList)) ∧
    loadTags (writeTagsFile ["a", "b"]) = ["a", "b"] :=
  ⟨⟨by decide, by decide⟩,
    (updateTags_roundTrip ⟨["a", "b"], none, []⟩ .different (by decide) (by decide)).2⟩

/-! ### Claim theorems about the navigation history manager -/

/-- C2: with a non-empty forward buffer and a properly fresh identity
counter, pushing a new location that differs structurally (URI string, or
ordered tag list) from the top of the forward buffer — and from the visible
page, so that a push actually happens — constructs a fresh page and empties
the entire forward buffer. -/
theorem divergent_push_clears_forward (s : NavState) (page np : Page)
    (hvis : s.stack.getLast? = some page)
    (hnp : s.nextPages.getLast? = some np)
    (hfresh : ∀ q ∈ s.nextPages, q.pid < s.nextPid) :
    (∀ u : String, page.gfile ≠ some u → np.gfile ≠ some u →
      newPage s (some u) none none =
        .ok ⟨s.stack ++ [⟨s.nextPid, some u, none⟩], [], s.nextPid + 1⟩) ∧
    (∀ l : List String, l ≠ [] → page.tags ≠ some l → np.tags ≠ some l →
      newPage s none none (some l) =
        .ok ⟨s.stack ++ [⟨s.nextPid, none, some l⟩], [], s.nextPid + 1⟩) := by
  have hne : s.nextPages ≠ [] := by
    intro h
    rw [h] at hnp
    simp at hnp
  have hnpmem := mem_of_getLast?_eq hnp
  have hlt := hfresh np hnpmem
  constructor
  · intro u hpu hnu
    have hfar : ¬ s.nextPages.getLast? = some (⟨s.nextPid, some u, none⟩ : Page) := by
      rw [hnp]
      intro hcontra
      have : np = (⟨s.nextPid, some u, none⟩ : Page) := by simpa using hcontra
      rw [this] at hlt
      simp at hlt
    unfold newPage
    rw [hvis]
    simp only [if_neg hpu]
    rw [hnp]
    simp only [if_neg hnu]
    simp [pushPage, pushedHandler, List.getLast?_concat, hne, hfar]
  · intro l hl hpl hnl
    have hfar : ¬ s.nextPages.getLast? = some (⟨s.nextPid, none, some l⟩ : Page) := by
      rw [hnp]
      intro hcontra
      have : np = (⟨s.nextPid, none, some l⟩ : Page) := by simpa using hcontra
      rw [this] at hlt
      simp at hlt
    unfold newPage
    rw [hvis]
    simp only [if_pos hl, if_neg hpl]
    rw [hnp]
    simp only [if_neg hnl]
    simp [pushPage, pushedHandler, List.getLast?_concat, hne, hfar]

/-- C2 witness: after a back navigation, navigating to a location different
from both the visible page and the forward-buffer top empties the buffer. -/
theorem divergent_push_clears_forward_witness :
    ((goBack ⟨[⟨0, some "file:///a", none⟩, ⟨1, some "file:///b", none⟩], [], 2⟩).nextPages ≠ [] ∧
      (goBack ⟨[⟨0, some "file:///a", none⟩, ⟨1, some "file:///b", none⟩], [], 2⟩).stack.getLast? =
        some ⟨0, some "file:///a", none⟩) ∧
    newPage (goBack ⟨[⟨0, some "file:///a", none⟩, ⟨1, some "file:///b", none⟩], [], 2⟩)
        (some "file:///c") none none =
      .ok ⟨(goBack ⟨[⟨0, some "file:///a", none⟩, ⟨1, some "file:///b", none⟩], [], 2⟩).stack ++
          [⟨(goBack ⟨[⟨0, some "file:///a", none⟩, ⟨1, some "file:///b", none⟩], [], 2⟩).nextPid,
            some "file:///c", none⟩],
        [],
        (goBack ⟨[⟨0, some "file:///a", none⟩, ⟨1, some "file:///b", none⟩], [], 2⟩).nextPid + 1⟩ :=
  ⟨⟨by decide, by decide⟩,
    (divergent_push_clears_forward
        (goBack ⟨[⟨0, some "file:///a", none⟩, ⟨1, some "file:///b", none⟩], [], 2⟩)
        ⟨0, some "file:///a", none⟩ ⟨1, some "file:///b", none⟩
        (by decide) (by decide) (by decide)).1
      "file:///c" (by decide) (by decide)⟩

/-- C6: with a non-empty forward buffer, navigating to a location
structurally equal (same URI string, or same ordered tag list) to the top
of the forward buffer — and different from the visible page — pushes that
very page object back onto the stack, pops it off the buffer, and
constructs nothing (the identity counter is unchanged). -/
theorem forward_top_reused_identically (s : NavState) (page np : Page)
    (hvis : s.stack.getLast? = some page)
    (hnp : s.nextPages.getLast? = some np) :
    (∀ u : String, np.gfile = some u → page.gfile ≠ some u →
      newPage s (some u) none none =
        .ok ⟨s.stack ++ [np], s.nextPages.dropLast, s.nextPid⟩) ∧
    (∀ l : List String, l ≠ [] → np.tags = some l → page.tags ≠ some l →
      newPage s none none (some l) =
        .ok ⟨s.stack ++ [np], s.nextPages.dropLast, s.nextPid⟩) := by
  have hne : s.nextPages ≠ [] := by
    intro h
    rw [h] at hnp
    simp at hnp
  constructor
  · intro u hnu hpu
    unfold newPage
    rw [hvis]
    simp only [if_neg hpu]
    rw [hnp]
    simp only [if_pos hnu]
    simp [pushPage, pushedHandler, List.getLast?_concat, hne, hnp]
  · intro l hl hnl hpl
    unfold newPage
    rw [hvis]
    simp only [if_pos hl, if_neg hpl]
    rw [hnp]
    simp only [if_pos hnl]
    simp [pushPage, pushedHandler, List.getLast?_concat, hne, hnp]

/-- C6 witness: after a back navigation, navigating to the location of the
page just popped reuses that very page and pops it off the buffer. -/
theorem forward_top_reused_identically_witness :
    ((goBack ⟨[⟨0, some "file:///a", none⟩, ⟨1, some "file:///b", none⟩], [], 2⟩).nextPages.getLast? =
        some ⟨1, some "file:///b", none⟩) ∧
    newPage (goBack ⟨[⟨0, some "file:///a", none⟩, ⟨1, some "file:///b", none⟩], [], 2⟩)
        (some "file:///b") none none =
      .ok ⟨(goBack ⟨[⟨0, some "file:///a", none⟩, ⟨1, some "file:///b", none⟩], [], 2⟩).stack ++
          [⟨1, some "file:///b", none⟩],
        (goBack ⟨[⟨0, some "file:///a", none⟩, ⟨1, some "file:///b", none⟩], [], 2⟩).nextPages.dropLast,
        (goBack ⟨[⟨0, some "file:///a", none⟩, ⟨1, some "file:///b", none⟩], [], 2⟩).nextPid⟩ :=
  ⟨by decide,
    (forward_top_reused_identically
        (goBack ⟨[⟨0, some "file:///a", none⟩, ⟨1, some "file:///b", none⟩], [], 2⟩)
        ⟨0, some "file:///a", none⟩ ⟨1, some "file:///b", none⟩
        (by decide) (by decide)).1
      "file:///b" (by decide) (by decide)⟩

/-- C4 counterexample: calling the path-bar update with neither a file nor
tags is not a silent no-op — the source falls through both branches and
reads the never-assigned local `segments`, raising `UnboundLocalError`. -/
theorem pathBar_update_empty_target_raises :
    updateBar ⟨["/", "home", "u"], "file:///home/u"⟩
        ⟨[], false, 0⟩ none [] = .error .unboundLocal := rfl

/-- C4 amended: calling `new_page` with neither a file location nor tags is
a silent no-op (the state is returned unchanged and nothing is pushed),
but calling the path-bar update with neither raises `UnboundLocalError`
before touching any displayed segment, instead of being a no-op. -/
theorem empty_target_noop_or_raises :
    (∀ (s : NavState) (page : Page), s.stack.getLast? = some page →
      newPage s none none none = .ok s ∧ newPage s none none (some []) = .ok s) ∧
    (∀ (ctx : Ctx) (bar : PathBar), updateBar ctx bar none [] = .error .unboundLocal) := by
  constructor
  · intro s page hvis
    constructor
    · unfold newPage
      rw [hvis]
      simp [newPageTagBranch]
    · unfold newPage
      rw [hvis]
      simp [newPageTagBranch]
  · intro ctx bar
    unfold updateBar
    simp

/-- C4 amended witness. -/
theorem empty_target_noop_or_raises_witness :
    ((⟨[⟨0, some "file:///a", none⟩], [], 1⟩ : NavState).stack.getLast? =
        some ⟨0, some "file:///a", none⟩) ∧
    newPage ⟨[⟨0, some "file:///a", none⟩], [], 1⟩ none none none =
      .ok ⟨[⟨0, some "file:///a", none⟩], [], 1⟩ :=
  ⟨by decide,
    (empty_target_noop_or_raises.1 ⟨[⟨0, some "file:///a", none⟩], [], 1⟩
        ⟨0, some "file:///a", none⟩ (by decide)).1⟩

/-! ### Supporting lemmas about the path bar -/

theorem repairActive_map_segData : ∀ l : List Segment,
    (repairActive l).map segData = l.map segData
  | [] => rfl
  | [_] => rfl
  | [_, _] => rfl
  | x :: y :: z :: rest => by
    have ih := repairActive_map_segData (y :: z :: rest)
    show (x :: repairActive (y :: z :: rest)).map segData = _
    simp only [List.map_cons] at ih ⊢
    rw [ih]

theorem map_segData_length {l₁ l₂ : List Segment}
    (h : l₁.map segData = l₂.map segData) : l₁.length = l₂.length := by
  have := congrArg List.length h
  simpa using this

theorem repairActive_length (l : List Segment) :
    (repairActive l).length = l.length :=
  map_segData_length (repairActive_map_segData l)

theorem sepFlagsOk_eq_of_map_segData {l₁ l₂ : List Segment}
    (h : l₁.map segData = l₂.map segData) : sepFlagsOk l₁ = sepFlagsOk l₂ := by
  induction l₁ generalizing l₂ with
  | nil =>
    have : l₂ = [] := by
      cases l₂ with
      | nil => rfl
      | cons y ys => simp at h
    rw [this]
  | cons x xs ih =>
    cases l₂ with
    | nil => simp at h
    | cons y ys =>
      simp only [List.map_cons, List.cons.injEq] at h
      have hsep : x.hasSep = y.hasSep := by
        have := h.1
        simp [segData] at this
        exact this.2.2.2.2.2
      have hall : xs.all (·.hasSep) = ys.all (·.hasSep) := by
        clear ih hsep
        have h2 := h.2
        clear h
        induction xs generalizing ys with
        | nil =>
          cases ys with
          | nil => rfl
          | cons z zs => simp at h2
        | cons a as ih2 =>
          cases ys with
          | nil => simp at h2
          | cons b bs =>
            simp only [List.map_cons, List.cons.injEq] at h2
            have hab : a.hasSep = b.hasSep := by
              have := h2.1
              simp [segData] at this
              exact this.2.2.2.2.2
            simp [List.all_cons, hab, ih2 bs h2.2]
      simp [sepFlagsOk, hsep, hall]

theorem sepFlagsOk_repairActive (l : List Segment) :
    sepFlagsOk (repairActive l) = sepFlagsOk l :=
  sepFlagsOk_eq_of_map_segData (repairActive_map_segData l)

theorem sepFlagsOk_take {l : List Segment} (h : sepFlagsOk l = true) (k : Nat) :
    sepFlagsOk (l.take k) = true := by
  cases l with
  | nil => simp [List.take_nil, h]
  | cons x xs =>
    cases k with
    | zero => rfl
    | succ m =>
      simp only [sepFlagsOk, Bool.and_eq_true] at h
      simp only [List.take_succ_cons, sepFlagsOk, Bool.and_eq_true]
      refine ⟨h.1, ?_⟩
      have := h.2
      rw [List.all_eq_true] at this ⊢
      intro a ha
      exact this a (List.mem_of_mem_take ha)

theorem sepFlagsOk_dropLast {l : List Segment} (h : sepFlagsOk l = true) :
    sepFlagsOk l.dropLast = true := by
  rw [List.dropLast_eq_take]
  exact sepFlagsOk_take h _

theorem popLast_concat (l : List Segment) (a : Segment) :
    popLast (l ++ [a]) = some (l, a) := by
  induction l with
  | nil => rfl
  | cons x xs ih =>
    cases xs with
    | nil => simp [popLast]
    | cons y ys =>
      show (match popLast ((y :: ys) ++ [a]) with
        | some (r, last) => some (x :: r, last)
        | none => none) = some (x :: (y :: ys), a)
      rw [ih]

theorem getLast_hasSep {l : List Segment} (hsep : sepFlagsOk l = true)
    (h2 : 2 ≤ l.length) (hne : l ≠ []) : (l.getLast hne).hasSep = true := by
  cases l with
  | nil => exact absurd rfl hne
  | cons x xs =>
    cases xs with
    | nil => simp at h2
    | cons y ys =>
      rw [List.getLast_cons (List.cons_ne_nil y ys)]
      simp only [sepFlagsOk, Bool.and_eq_true, List.all_eq_true] at hsep
      exact hsep.2 _ (List.getLast_mem (List.cons_ne_nil y ys))

theorem removeLoop_spec : ∀ (n : Nat) (segs : List Segment),
    sepFlagsOk segs = true → (segs = [] → n = 0) →
    ∃ e, removeLoop n segs =
      .ok (segs.take (segs.length - n), (segs.drop (segs.length - n)).reverse, e) ∧
      (e = true → segs.length - n = 0) := by
  intro n
  induction n with
  | zero =>
    intro segs _ _
    exact ⟨false, by simp [removeLoop, List.take_length, List.drop_length], by simp⟩
  | succ m ih =>
    intro segs hsep h0
    have hne : segs ≠ [] := fun hc => by simpa using h0 hc
    obtain ⟨D, a, hsegs⟩ : ∃ D a, segs = D ++ [a] :=
      ⟨segs.dropLast, segs.getLast hne, (List.dropLast_append_getLast hne).symm⟩
    subst hsegs
    have hpop : popLast (D ++ [a]) = some (D, a) := popLast_concat D a
    have hlen : (D ++ [a]).length = D.length + 1 := by simp
    by_cases hD : D = []
    · subst hD
      simp only [List.nil_append] at hsep ⊢
      have hflag : a.hasSep = false := by
        simpa [sepFlagsOk] using hsep
      have h10 : ([a] : List Segment).length - (m + 1) = 0 := by simp
      refine ⟨true, ?_, fun _ => h10⟩
      rw [h10]
      show (match popLast [a] with
        | none => Except.error PyErr.indexError
        | some (rest, child) =>
          if child.hasSep then
            match removeLoop m rest with
            | .ok (r, rem, e) => .ok (r, child :: rem, e)
            | .error err => .error err
          else .ok (rest, [child], true)) = _
      simp [popLast, hflag]
    · have hflag : a.hasSep = true := by
        cases D with
        | nil => exact absurd rfl hD
        | cons d D2 =>
          simp only [List.cons_append, sepFlagsOk, Bool.and_eq_true,
            List.all_eq_true] at hsep
          exact hsep.2 a (by simp)
      have hsepD : sepFlagsOk D = true := by
        have := sepFlagsOk_dropLast hsep
        rwa [List.dropLast_concat] at this
      obtain ⟨e, heq, himp⟩ := ih D hsepD (fun hc => absurd hc hD)
      have harith : (D ++ [a]).length - (m + 1) = D.length - m := by
        rw [hlen]
        omega
      have hkle : D.length - m ≤ D.length := Nat.sub_le _ _
      refine ⟨e, ?_, fun he => by rw [harith]; exact himp he⟩
      rw [harith]
      show (match popLast (D ++ [a]) with
        | none => Except.error PyErr.indexError
        | some (rest, child) =>
          if child.hasSep then
            match removeLoop m rest with
            | .ok (r, rem, e) => .ok (r, child :: rem, e)
            | .error err => .error err
          else .ok (rest, [child], true)) = _
      rw [hpop]
      simp only [hflag, if_true, heq]
      rw [List.take_append_of_le_length hkle,
        List.drop_append_of_le_length hkle, List.reverse_append]
      rfl

theorem removeSegs_spec (bar : PathBar) (n : Nat)
    (hsep : sepFlagsOk bar.segments = true) (h0 : bar.segments = [] → n = 0) :
    removeSegs bar n =
      .ok (⟨(if bar.tags then id else repairActive)
          (bar.segments.take (bar.segments.length - n)), bar.tags, bar.nextId⟩,
        (bar.segments.drop (bar.segments.length - n)).reverse) := by
  obtain ⟨e, heq, himp⟩ := removeLoop_spec n bar.segments hsep h0
  unfold removeSegs
  rw [heq]
  cases e with
  | true =>
    have hz := himp rfl
    rw [hz]
    simp only [List.take_zero, if_true]
    rcases bar with ⟨segs, tags, nid⟩
    cases tags <;> simp [repairActive]
  | false =>
    rcases bar with ⟨segs, tags, nid⟩
    cases tags <;> simp

theorem not_isEmpty_eq_decide (l : List Segment) :
    (!l.isEmpty) = decide (l.length ≠ 0) := by
  cases l <;> simp

theorem appendSeg_segData (bar : PathBar) (spec : SegSpec) :
    (appendSeg bar spec).segments.map segData =
      bar.segments.map segData ++
        [(bar.nextId, spec.label, spec.icon, spec.uri, spec.tag,
          decide (bar.segments.length ≠ 0))] ∧
    (appendSeg bar spec).tags = bar.tags ∧
    (appendSeg bar spec).nextId = bar.nextId + 1 := by
  unfold appendSeg
  cases htags : bar.tags <;>
    simp [repairActive_map_segData, segData, not_isEmpty_eq_decide]

theorem foldl_appendSeg_spec : ∀ (specs : List SegSpec) (bar : PathBar),
    ((specs.foldl appendSeg bar).segments.map segData =
      bar.segments.map segData ++ freshData bar.nextId bar.segments.length specs) ∧
    (specs.foldl appendSeg bar).tags = bar.tags ∧
    (specs.foldl appendSeg bar).nextId = bar.nextId + specs.length := by
  intro specs
  induction specs with
  | nil => intro bar; simp [freshData]
  | cons spec rest ih =>
    intro bar
    obtain ⟨hdata, htags, hnid⟩ := appendSeg_segData bar spec
    obtain ⟨ihdata, ihtags, ihnid⟩ := ih (appendSeg bar spec)
    have hlen : (appendSeg bar spec).segments.length = bar.segments.length + 1 := by
      have := congrArg List.length hdata
      simpa using this
    refine ⟨?_, ?_, ?_⟩
    · show ((rest.foldl appendSeg (appendSeg bar spec)).segments.map segData) = _
      rw [ihdata, hdata, hnid, hlen]
      rw [List.append_assoc]
      congr 1
    · show (rest.foldl appendSeg (appendSeg bar spec)).tags = bar.tags
      rw [ihtags, htags]
    · show (rest.foldl appendSeg (appendSeg bar spec)).nextId = bar.nextId + (spec :: rest).length
      rw [ihnid, hnid]
      simp
      omega

theorem diffLoop_appendAll : ∀ (specs : List SegSpec) (bar : PathBar) (idx : Nat),
    diffLoop bar idx true specs = .ok (specs.foldl appendSeg bar, [], specs) := by
  intro specs
  induction specs with
  | nil => intro bar idx; rfl
  | cons spec rest ih =>
    intro bar idx
    show diffLoop bar idx true (spec :: rest) = _
    simp only [diffLoop, Bool.not_true, Bool.false_and, Bool.false_eq_true, if_false,
      if_true]
    rw [ih (appendSeg bar spec) (idx + 1)]
    simp

theorem freshData_sid_lb : ∀ (ts : List SegSpec) (i p : Nat) (d : SegDatum),
    d ∈ freshData i p ts → i ≤ d.1 := by
  intro ts
  induction ts with
  | nil => intro i p d hd; simp [freshData] at hd
  | cons t rest ih =>
    intro i p d hd
    simp only [freshData, List.mem_cons] at hd
    rcases hd with rfl | hd
    · simp
    · have := ih (i + 1) (p + 1) d hd
      omega

theorem cpl_le_right : ∀ (l : List Segment) (ts : List SegSpec), cpl l ts ≤ ts.length := by
  intro l
  induction l with
  | nil => intro ts; cases ts <;> simp [cpl]
  | cons x xs ih =>
    intro ts
    cases ts with
    | nil => simp [cpl]
    | cons t tr =>
      by_cases hk : segKey x = specKey t
      · simpa [cpl, hk] using ih tr
      · simp [cpl, hk]

theorem cpl_le_left : ∀ (l : List Segment) (ts : List SegSpec), cpl l ts ≤ l.length := by
  intro l
  induction l with
  | nil => intro ts; cases ts <;> simp [cpl]
  | cons x xs ih =>
    intro ts
    cases ts with
    | nil => simp [cpl]
    | cons t tr =>
      by_cases hk : segKey x = specKey t
      · simpa [cpl, hk] using ih tr
      · simp [cpl, hk]

theorem cpl_take_full : ∀ (l : List Segment) (ts : List SegSpec),
    cpl (l.take ts.length) ts = cpl l ts := by
  intro l
  induction l with
  | nil => intro ts; simp
  | cons x xs ih =>
    intro ts
    cases ts with
    | nil => simp [cpl]
    | cons t tr =>
      simp only [List.length_cons, List.take_succ_cons]
      by_cases hk : segKey x = specKey t
      · simp [cpl, hk, ih tr]
      · simp [cpl, hk]

theorem cpl_eq_of_map_segData : ∀ {l₁ l₂ : List Segment},
    l₁.map segData = l₂.map segData → ∀ ts : List SegSpec, cpl l₁ ts = cpl l₂ ts := by
  intro l₁
  induction l₁ with
  | nil =>
    intro l₂ h ts
    cases l₂ with
    | nil => rfl
    | cons y ys => simp at h
  | cons x xs ih =>
    intro l₂ h ts
    cases l₂ with
    | nil => simp at h
    | cons y ys =>
      simp only [List.map_cons, List.cons.injEq] at h
      have hkey : segKey x = segKey y := by
        have := h.1
        simp only [segData, Prod.mk.injEq] at this
        simp [segKey, this.2.2.2.1, this.2.2.2.2.1]
      cases ts with
      | nil => simp [cpl]
      | cons t tr =>
        simp only [cpl, hkey, ih h.2 tr]

theorem diffLoop_mismatch (bar : PathBar) (idx : Nat) (spec : SegSpec) (rest : List SegSpec)
    (hsep : sepFlagsOk bar.segments = true) (hidx : idx ≤ bar.segments.length)
    (hm : (match bar.segments[idx]? with
      | some o => spec.uri == o.uri && spec.tag == o.tag
      | none => false) = false) :
    diffLoop bar idx false (spec :: rest) =
      .ok ((spec :: rest).foldl appendSeg
          ⟨(if bar.tags then id else repairActive) (bar.segments.take idx),
            bar.tags, bar.nextId⟩,
        (bar.segments.drop idx).reverse, spec :: rest) := by
  have h0 : bar.segments = [] → bar.segments.length - idx = 0 := by
    intro h
    simp [h]
  have hrs := removeSegs_spec bar (bar.segments.length - idx) hsep h0
  have hsub : bar.segments.length - (bar.segments.length - idx) = idx := by omega
  rw [hsub] at hrs
  simp only [diffLoop, Bool.not_false, Bool.true_and, hm, Bool.false_eq_true, if_false,
    hrs, diffLoop_appendAll]
  simp [List.foldl_cons]

theorem pathBar_eq_mk (b : PathBar) (t : Bool) (n : Nat) (ht : b.tags = t)
    (hn : b.nextId = n) : b = ⟨b.segments, t, n⟩ := by
  cases b
  cases ht
  cases hn
  rfl

theorem diffLoop_spec : ∀ (specs : List SegSpec) (bar : PathBar) (idx : Nat),
    sepFlagsOk bar.segments = true →
    idx ≤ bar.segments.length →
    bar.segments.length ≤ idx + specs.length →
    ∃ segs', diffLoop bar idx false specs =
      .ok (⟨segs', bar.tags,
          bar.nextId + (specs.length - cpl (bar.segments.drop idx) specs)⟩,
        (bar.segments.drop (idx + cpl (bar.segments.drop idx) specs)).reverse,
        specs.drop (cpl (bar.segments.drop idx) specs)) ∧
      segs'.map segData =
        (bar.segments.take (idx + cpl (bar.segments.drop idx) specs)).map segData ++
          freshData bar.nextId (idx + cpl (bar.segments.drop idx) specs)
            (specs.drop (cpl (bar.segments.drop idx) specs)) := by
  intro specs
  induction specs with
  | nil =>
    intro bar idx hsep hidx hlen
    have hge : bar.segments.length ≤ idx := by simpa using hlen
    have hdrop : bar.segments.drop idx = [] := List.drop_eq_nil_of_le hge
    have htake : bar.segments.take idx = bar.segments := List.take_of_length_le hge
    refine ⟨bar.segments, ?_, ?_⟩
    · rw [hdrop]
      show Except.ok (bar, [], []) =
        Except.ok ((⟨bar.segments, bar.tags, bar.nextId⟩ : PathBar),
          (bar.segments.drop idx).reverse, ([] : List SegSpec))
      rw [List.drop_eq_nil_of_le hge]
      rfl
    · rw [hdrop]
      show List.map segData bar.segments =
        (bar.segments.take idx).map segData ++ freshData bar.nextId idx []
      rw [htake]
      simp [freshData]
  | cons spec rest ih =>
    intro bar idx hsep hidx hlen
    by_cases hlt : idx < bar.segments.length
    · have hget : bar.segments[idx]? = some bar.segments[idx] :=
        List.getElem?_eq_getElem hlt
      have hdropc : bar.segments.drop idx =
          bar.segments[idx] :: bar.segments.drop (idx + 1) :=
        List.drop_eq_getElem_cons hlt
      by_cases hkey : spec.uri = bar.segments[idx].uri ∧ spec.tag = bar.segments[idx].tag
      · have hmatched : (match bar.segments[idx]? with
            | some o => spec.uri == o.uri && spec.tag == o.tag
            | none => false) = true := by
          rw [hget]
          simp [hkey.1, hkey.2]
        have hstep : diffLoop bar idx false (spec :: rest) =
            diffLoop bar (idx + 1) false rest := by
          simp only [diffLoop, Bool.not_false, Bool.true_and, hmatched, if_true]
        have hcpl : cpl (bar.segments.drop idx) (spec :: rest) =
            cpl (bar.segments.drop (idx + 1)) rest + 1 := by
          rw [hdropc]
          simp [cpl, segKey, specKey, hkey.1, hkey.2]
        obtain ⟨segs', heq, hdata⟩ := ih bar (idx + 1) hsep hlt
          (by have := hlen; simp at this ⊢; omega)
        refine ⟨segs', ?_, ?_⟩
        · rw [hstep, heq, hcpl]
          have h1 : idx + (cpl (bar.segments.drop (idx + 1)) rest + 1) =
              idx + 1 + cpl (bar.segments.drop (idx + 1)) rest := by omega
          have h2 : (spec :: rest).length - (cpl (bar.segments.drop (idx + 1)) rest + 1) =
              rest.length - cpl (bar.segments.drop (idx + 1)) rest := by simp
          rw [h1, h2, List.drop_succ_cons]
        · rw [hcpl, hdata]
          have h1 : idx + (cpl (bar.segments.drop (idx + 1)) rest + 1) =
              idx + 1 + cpl (bar.segments.drop (idx + 1)) rest := by omega
          rw [h1, List.drop_succ_cons]
      · have hm : (match bar.segments[idx]? with
            | some o => spec.uri == o.uri && spec.tag == o.tag
            | none => false) = false := by
          rw [hget]
          rcases Decidable.not_and_iff_or_not.mp hkey with h | h <;> simp [h]
        have hcpl : cpl (bar.segments.drop idx) (spec :: rest) = 0 := by
          rw [hdropc]
          simp only [cpl, segKey, specKey]
          rw [if_neg]
          intro hc
          injection hc with hu ht
          exact hkey ⟨hu.symm, ht.symm⟩
        obtain ⟨hfdata, hftags, hfnid⟩ := foldl_appendSeg_spec (spec :: rest)
          ⟨(if bar.tags then id else repairActive) (bar.segments.take idx),
            bar.tags, bar.nextId⟩
        have hmap : ((if bar.tags then id else repairActive)
            (bar.segments.take idx)).map segData =
            (bar.segments.take idx).map segData := by
          cases bar.tags with
          | true => simp
          | false => simp [repairActive_map_segData]
        have hlen2 : ((if bar.tags then id else repairActive)
            (bar.segments.take idx)).length = idx := by
          have := congrArg List.length hmap
          simp only [List.length_map] at this
          rw [this, List.length_take]
          omega
        have hemk := pathBar_eq_mk ((spec :: rest).foldl appendSeg
            ⟨(if bar.tags then id else repairActive) (bar.segments.take idx),
              bar.tags, bar.nextId⟩)
          bar.tags (bar.nextId + (spec :: rest).length) hftags hfnid
        refine ⟨((spec :: rest).foldl appendSeg
            ⟨(if bar.tags then id else repairActive) (bar.segments.take idx),
              bar.tags, bar.nextId⟩).segments, ?_, ?_⟩
        · rw [hcpl]
          show diffLoop bar idx false (spec :: rest) =
            Except.ok ((⟨((spec :: rest).foldl appendSeg
                ⟨(if bar.tags then id else repairActive) (bar.segments.take idx),
                  bar.tags, bar.nextId⟩).segments,
                bar.tags, bar.nextId + (spec :: rest).length⟩ : PathBar),
              (bar.segments.drop idx).reverse, spec :: rest)
          rw [diffLoop_mismatch bar idx spec rest hsep (Nat.le_of_lt hlt) hm, ← hemk]
        · rw [hcpl]
          show _ = (bar.segments.take idx).map segData ++
            freshData bar.nextId idx (spec :: rest)
          rw [hfdata, hmap, hlen2]
    · have hge : bar.segments.length ≤ idx := Nat.le_of_not_lt hlt
      have hidxeq : idx = bar.segments.length := Nat.le_antisymm hidx hge
      have hget : bar.segments[idx]? = none := by
        rw [List.getElem?_eq_none]
        exact hge
      have hm : (match bar.segments[idx]? with
          | some o => spec.uri == o.uri && spec.tag == o.tag
          | none => false) = false := by
        rw [hget]
      have hdrop : bar.segments.drop idx = [] := List.drop_eq_nil_of_le hge
      have hcpl : cpl (bar.segments.drop idx) (spec :: rest) = 0 := by
        rw [hdrop]
        rfl
      have htake : bar.segments.take idx = bar.segments := List.take_of_length_le hge
      have hsub0 : bar.segments.length - idx = 0 := by omega
      have hrs := removeSegs_spec bar 0 hsep (fun _ => rfl)
      rw [Nat.sub_zero, List.take_length, List.drop_length] at hrs
      rw [← htake] at hrs
      obtain ⟨hfdata, hftags, hfnid⟩ := foldl_appendSeg_spec (spec :: rest)
        ⟨(if bar.tags then id else repairActive) (bar.segments.take idx),
          bar.tags, bar.nextId⟩
      have hmap : ((if bar.tags then id else repairActive)
          (bar.segments.take idx)).map segData =
          (bar.segments.take idx).map segData := by
        cases bar.tags with
        | true => simp
        | false => simp [repairActive_map_segData]
      have hlen2 : ((if bar.tags then id else repairActive)
          (bar.segments.take idx)).length = idx := by
        have := congrArg List.length hmap
        simp only [List.length_map] at this
        rw [this, List.length_take]
        omega
      have hstep : diffLoop bar idx false (spec :: rest) =
          .ok ((spec :: rest).foldl appendSeg
              ⟨(if bar.tags then id else repairActive) (bar.segments.take idx),
                bar.tags, bar.nextId⟩,
            [], spec :: rest) := by
        simp only [diffLoop, Bool.not_false, Bool.true_and, hm, Bool.false_eq_true,
          if_false, hsub0, hrs, diffLoop_appendAll]
        simp [List.foldl_cons]
      have hemk := pathBar_eq_mk ((spec :: rest).foldl appendSeg
          ⟨(if bar.tags then id else repairActive) (bar.segments.take idx),
            bar.tags, bar.nextId⟩)
        bar.tags (bar.nextId + (spec :: rest).length) hftags hfnid
      refine ⟨((spec :: rest).foldl appendSeg
          ⟨(if bar.tags then id else repairActive) (bar.segments.take idx),
            bar.tags, bar.nextId⟩).segments, ?_, ?_⟩
      · rw [hcpl]
        show diffLoop bar idx false (spec :: rest) =
          Except.ok ((⟨((spec :: rest).foldl appendSeg
              ⟨(if bar.tags then id else repairActive) (bar.segments.take idx),
                bar.tags, bar.nextId⟩).segments,
              bar.tags, bar.nextId + (spec :: rest).length⟩ : PathBar),
            (bar.segments.drop idx).reverse, spec :: rest)
        rw [hstep, ← hemk, List.drop_eq_nil_of_le hge]
        rfl
      · rw [hcpl]
        show _ = (bar.segments.take idx).map segData ++
          freshData bar.nextId idx (spec :: rest)
        rw [hfdata, hmap, hlen2]

theorem drop_split {α : Type} (l : List α) (p m : Nat) (hpm : p ≤ m)
    (hpl : p ≤ l.length) :
    l.drop p = (l.take m).drop p ++ l.drop m := by
  have hple : p ≤ (l.take m).length := by
    rw [List.length_take]
    omega
  conv_lhs => rw [← List.take_append_drop m l]
  rw [List.drop_append_of_le_length hple]

theorem applyDiff_spec (bar : PathBar) (specs : List SegSpec) (logged : Bool)
    (hsep : sepFlagsOk bar.segments = true) :
    diffOutcome bar specs logged (applyDiff bar specs logged) := by
  by_cases hc : specs.length < bar.segments.length
  · have h0 : bar.segments = [] → bar.segments.length - specs.length = 0 := by
      intro h
      rw [h] at hc
      simp at hc
    have hrs := removeSegs_spec bar (bar.segments.length - specs.length) hsep h0
    have hsub : bar.segments.length - (bar.segments.length - specs.length) =
        specs.length := by omega
    rw [hsub] at hrs
    have hmap : ((if bar.tags then id else repairActive)
        (bar.segments.take specs.length)).map segData =
        (bar.segments.take specs.length).map segData := by
      cases bar.tags with
      | true => simp
      | false => simp [repairActive_map_segData]
    have hsep1 : sepFlagsOk ((if bar.tags then id else repairActive)
        (bar.segments.take specs.length)) = true := by
      rw [sepFlagsOk_eq_of_map_segData hmap]
      exact sepFlagsOk_take hsep _
    have hlen1 : ((if bar.tags then id else repairActive)
        (bar.segments.take specs.length)).length = specs.length := by
      have := congrArg List.length hmap
      simp only [List.length_map] at this
      rw [this, List.length_take]
      omega
    obtain ⟨segs', heq, hdata⟩ := diffLoop_spec specs
      ⟨(if bar.tags then id else repairActive) (bar.segments.take specs.length),
        bar.tags, bar.nextId⟩ 0 hsep1 (Nat.zero_le _) (by rw [hlen1]; omega)
    have hp : cpl (((if bar.tags then id else repairActive)
        (bar.segments.take specs.length)).drop 0) specs = cpl bar.segments specs := by
      rw [List.drop_zero, cpl_eq_of_map_segData hmap specs, cpl_take_full]
    rw [hp] at heq hdata
    have hple : cpl bar.segments specs ≤ specs.length := cpl_le_right _ _
    have hpleft : cpl bar.segments specs ≤ bar.segments.length := cpl_le_left _ _
    refine ⟨segs', (bar.segments.drop specs.length).reverse ++
      (((if bar.tags then id else repairActive)
        (bar.segments.take specs.length)).drop
          (0 + cpl bar.segments specs)).reverse, ?_, ?_, ?_⟩
    · show (match (if specs.length < bar.segments.length then
          removeSegs bar (bar.segments.length - specs.length)
        else Except.ok (bar, [])) with
        | Except.error e => Except.error e
        | Except.ok (bar₁, removed₀) =>
          match diffLoop bar₁ 0 false specs with
          | Except.error e => Except.error e
          | Except.ok (bar₂, removed₁, appended) =>
            Except.ok (bar₂, (⟨removed₀ ++ removed₁, appended, logged⟩ : BarTrace))) = _
      rw [if_pos hc, hrs]
      simp only [heq]
    · rw [List.map_append, List.map_reverse, List.map_reverse, Nat.zero_add,
        List.map_drop, List.map_drop, hmap, ← List.map_drop, ← List.map_drop,
        drop_split bar.segments (cpl bar.segments specs) specs.length hple hpleft,
        List.map_append, List.reverse_append]
    · rw [hdata, Nat.zero_add, List.map_take, List.map_take, hmap, ← List.map_take,
        ← List.map_take, List.take_take, Nat.min_eq_left hple]
  · have hge : bar.segments.length ≤ specs.length := Nat.le_of_not_lt hc
    obtain ⟨segs', heq, hdata⟩ := diffLoop_spec specs bar 0 hsep (Nat.zero_le _)
      (by omega)
    have hp : cpl (bar.segments.drop 0) specs = cpl bar.segments specs := by
      rw [List.drop_zero]
    rw [hp] at heq hdata
    refine ⟨segs', (bar.segments.drop (0 + cpl bar.segments specs)).reverse, ?_, ?_, ?_⟩
    · show (match (if specs.length < bar.segments.length then
          removeSegs bar (bar.segments.length - specs.length)
        else Except.ok (bar, [])) with
        | Except.error e => Except.error e
        | Except.ok (bar₁, removed₀) =>
          match diffLoop bar₁ 0 false specs with
          | Except.error e => Except.error e
          | Except.ok (bar₂, removed₁, appended) =>
            Except.ok (bar₂, (⟨removed₀ ++ removed₁, appended, logged⟩ : BarTrace))) = _
      rw [if_neg hc]
      simp only [heq, List.nil_append]
    · rw [Nat.zero_add, List.map_reverse, List.map_drop]
    · rw [hdata, Nat.zero_add]

theorem updateBar_gfile_same_mode (ctx : Ctx) (bar : PathBar) (g : GFileModel)
    (ts : List String) (h : bar.tags = false) :
    updateBar ctx bar (some g) ts =
      applyDiff bar (computeSpecs ctx g).1 (computeSpecs ctx g).2 := by
  rcases bar with ⟨segs, tags, nid⟩
  simp only [PathBar.tags] at h
  subst h
  simp [updateBar]

theorem updateBar_tags_same_mode (ctx : Ctx) (bar : PathBar) (ts : List String)
    (h : bar.tags = true) (hts : ts ≠ []) :
    updateBar ctx bar none ts = applyDiff bar (tagSpecs ts) false := by
  rcases bar with ⟨segs, tags, nid⟩
  simp only [PathBar.tags] at h
  subst h
  simp [updateBar, hts]

theorem updateBar_gfile_mode_switch (ctx : Ctx) (bar : PathBar) (g : GFileModel)
    (ts : List String) (h : bar.tags = true) :
    updateBar ctx bar (some g) ts =
      applyDiff ⟨[], false, bar.nextId⟩ (computeSpecs ctx g).1 (computeSpecs ctx g).2 := by
  rcases bar with ⟨segs, tags, nid⟩
  simp only [PathBar.tags] at h
  subst h
  simp [updateBar, purgeBar]

theorem updateBar_tags_mode_switch (ctx : Ctx) (bar : PathBar) (ts : List String)
    (h : bar.tags = false) (hts : ts ≠ []) :
    updateBar ctx bar none ts = applyDiff ⟨[], true, bar.nextId⟩ (tagSpecs ts) false := by
  rcases bar with ⟨segs, tags, nid⟩
  simp only [PathBar.tags] at h
  subst h
  simp [updateBar, purgeBar, hts]

/-! ### Claim theorems about the path bar -/

/-- C1: every path-bar update within a single display mode (a file update
in path mode, or a tag update in tag mode) realises the minimal
prefix diff between the displayed segments and the newly computed segment
tuples: exactly the displayed segments beyond the longest shared prefix
(matched on URI target and tag target) are removed, exactly the new tuples
beyond the prefix are appended, and the shared-prefix segments keep their
identity and data. -/
theorem pathbar_update_is_minimal_prefix_diff :
    (∀ (ctx : Ctx) (bar : PathBar) (g : GFileModel) (ts : List String),
      bar.tags = false → sepFlagsOk bar.segments = true →
      diffOutcome bar (computeSpecs ctx g).1 (computeSpecs ctx g).2
        (updateBar ctx bar (some g) ts)) ∧
    (∀ (ctx : Ctx) (bar : PathBar) (ts : List String),
      bar.tags = true → ts ≠ [] → sepFlagsOk bar.segments = true →
      diffOutcome bar (tagSpecs ts) false (updateBar ctx bar none ts)) := by
  constructor
  · intro ctx bar g ts h hsep
    rw [updateBar_gfile_same_mode ctx bar g ts h]
    exact applyDiff_spec bar _ _ hsep
  · intro ctx bar ts h hts hsep
    rw [updateBar_tags_same_mode ctx bar ts h hts]
    exact applyDiff_spec bar _ _ hsep

/-- C1 witness: displayed tag segments with targets a, b, c updated to
targets a, b, d — exactly one segment (c) is removed and exactly one
tuple (d) is appended, with a and b untouched. -/
theorem pathbar_update_is_minimal_prefix_diff_witness :
    ((⟨[⟨0, some "a", some "", none, some "a", false, false⟩,
        ⟨1, some "b", some "", none, some "b", false, true⟩,
        ⟨2, some "c", some "", none, some "c", false, true⟩], true, 3⟩ : PathBar).tags = true ∧
      (["a", "b", "d"] : List String) ≠ [] ∧
      sepFlagsOk (⟨[⟨0, some "a", some "", none, some "a", false, false⟩,
        ⟨1, some "b", some "", none, some "b", false, true⟩,
        ⟨2, some "c", some "", none, some "c", false, true⟩], true, 3⟩ : PathBar).segments = true) ∧
    diffOutcome ⟨[⟨0, some "a", some "", none, some "a", false, false⟩,
        ⟨1, some "b", some "", none, some "b", false, true⟩,
        ⟨2, some "c", some "", none, some "c", false, true⟩], true, 3⟩
      (tagSpecs ["a", "b", "d"]) false
      (updateBar ⟨["/"], "file:///"⟩
        ⟨[⟨0, some "a", some "", none, some "a", false, false⟩,
          ⟨1, some "b", some "", none, some "b", false, true⟩,
          ⟨2, some "c", some "", none, some "c", false, true⟩], true, 3⟩ none ["a", "b", "d"]) ∧
    updateBar ⟨["/"], "file:///"⟩
        ⟨[⟨0, some "a", some "", none, some "a", false, false⟩,
          ⟨1, some "b", some "", none, some "b", false, true⟩,
          ⟨2, some "c", some "", none, some "c", false, true⟩], true, 3⟩ none ["a", "b", "d"] =
      .ok (⟨[⟨0, some "a", some "", none, some "a", false, false⟩,
          ⟨1, some "b", some "", none, some "b", false, true⟩,
          ⟨3, some "d", some "", none, some "d", false, true⟩], true, 4⟩,
        ⟨[⟨2, some "c", some "", none, some "c", false, true⟩],
          [⟨some "d", some "", none, some "d"⟩], false⟩) :=
  ⟨⟨rfl, by decide, by decide⟩,
    pathbar_update_is_minimal_prefix_diff.2 ⟨["/"], "file:///"⟩
      ⟨[⟨0, some "a", some "", none, some "a", false, false⟩,
        ⟨1, some "b", some "", none, some "b", false, true⟩,
        ⟨2, some "c", some "", none, some "c", false, true⟩], true, 3⟩
      ["a", "b", "d"] rfl (by decide) (by decide),
    rfl⟩

theorem cpl_nil (ts : List SegSpec) : cpl [] ts = 0 := by
  cases ts <;> rfl

theorem freshData_members_ge {segs' : List Segment} {i p : Nat} {ts : List SegSpec}
    (hdata : segs'.map segData = freshData i p ts) :
    ∀ s ∈ segs', i ≤ s.sid := by
  intro s hs
  have hmem : segData s ∈ segs'.map segData := List.mem_map_of_mem segData hs
  rw [hdata] at hmem
  exact freshData_sid_lb ts i p (segData s) hmem

/-- C7: an update that switches display mode (path to tag or tag to path)
purges every previously displayed segment before adding the new ones,
regardless of any overlap in targets: every segment displayed afterwards is
freshly created (its identity is at least the pre-update counter), so no
previously displayed segment survives. -/
theorem mode_switch_purges_all :
    (∀ (ctx : Ctx) (bar : PathBar) (g : GFileModel) (ts : List String),
      bar.tags = true →
      ∃ bar' tr, updateBar ctx bar (some g) ts = .ok (bar', tr) ∧
        (∀ s ∈ bar'.segments, bar.nextId ≤ s.sid) ∧
        (∀ s ∈ bar.segments, s.sid < bar.nextId → s ∉ bar'.segments)) ∧
    (∀ (ctx : Ctx) (bar : PathBar) (ts : List String),
      bar.tags = false → ts ≠ [] →
      ∃ bar' tr, updateBar ctx bar none ts = .ok (bar', tr) ∧
        (∀ s ∈ bar'.segments, bar.nextId ≤ s.sid) ∧
        (∀ s ∈ bar.segments, s.sid < bar.nextId → s ∉ bar'.segments)) := by
  constructor
  · intro ctx bar g ts h
    rw [updateBar_gfile_mode_switch ctx bar g ts h]
    obtain ⟨segs', removedSegs, hres, hrem, hdata⟩ :=
      applyDiff_spec ⟨[], false, bar.nextId⟩ (computeSpecs ctx g).1 (computeSpecs ctx g).2 rfl
    rw [hres]
    refine ⟨_, _, rfl, ?_, ?_⟩
    · simp only [cpl_nil, List.take_nil, List.map_nil, List.nil_append,
        List.drop_zero] at hdata
      exact freshData_members_ge hdata
    · intro s hs hlt hmem
      simp only [cpl_nil, List.take_nil, List.map_nil, List.nil_append,
        List.drop_zero] at hdata
      have := freshData_members_ge hdata s hmem
      omega
  · intro ctx bar ts h hts
    rw [updateBar_tags_mode_switch ctx bar ts h hts]
    obtain ⟨segs', removedSegs, hres, hrem, hdata⟩ :=
      applyDiff_spec ⟨[], true, bar.nextId⟩ (tagSpecs ts) false rfl
    rw [hres]
    refine ⟨_, _, rfl, ?_, ?_⟩
    · simp only [cpl_nil, List.take_nil, List.map_nil, List.nil_append,
        List.drop_zero] at hdata
      exact freshData_members_ge hdata
    · intro s hs hlt hmem
      simp only [cpl_nil, List.take_nil, List.map_nil, List.nil_append,
        List.drop_zero] at hdata
      have := freshData_members_ge hdata s hmem
      omega

/-- C7 witness: a bar displaying tag segments x, y switches to a path-mode
location; the update succeeds and both resulting segments are fresh
(identities at least 2), so the displayed x, y segments were purged even
though nothing overlapped incrementally. -/
theorem mode_switch_purges_all_witness :
    ((⟨[⟨0, some "x", some "", none, some "x", false, false⟩,
        ⟨1, some "y", some "", none, some "y", false, true⟩], true, 2⟩ : PathBar).tags = true) ∧
    (∃ bar' tr,
      updateBar ⟨["/", "home", "u"], "file:///home/u"⟩
          ⟨[⟨0, some "x", some "", none, some "x", false, false⟩,
            ⟨1, some "y", some "", none, some "y", false, true⟩], true, 2⟩
          (some ⟨"file:///home/u/x", "file", ["", "home", "u", "x"],
            some ["/", "home", "u", "x"], none, none⟩) [] =
        .ok (bar', tr) ∧
      (∀ s ∈ bar'.segments,
        (⟨[⟨0, some "x", some "", none, some "x", false, false⟩,
          ⟨1, some "y", some "", none, some "y", false, true⟩], true, 2⟩ : PathBar).nextId ≤ s.sid) ∧
      (∀ s ∈ (⟨[⟨0, some "x", some "", none, some "x", false, false⟩,
          ⟨1, some "y", some "", none, some "y", false, true⟩], true, 2⟩ : PathBar).segments,
        s.sid < (⟨[⟨0, some "x", some "", none, some "x", false, false⟩,
          ⟨1, some "y", some "", none, some "y", false, true⟩], true, 2⟩ : PathBar).nextId →
        s ∉ bar'.segments)) :=
  ⟨rfl,
    mode_switch_purges_all.1 ⟨["/", "home", "u"], "file:///home/u"⟩
      ⟨[⟨0, some "x", some "", none, some "x", false, false⟩,
        ⟨1, some "y", some "", none, some "y", false, true⟩], true, 2⟩
      ⟨"file:///home/u/x", "file", ["", "home", "u", "x"],
        some ["/", "home", "u", "x"], none, none⟩ [] rfl⟩

theorem updateBar_gfile_ok (ctx : Ctx) (bar : PathBar) (g : GFileModel)
    (ts : List String) (hsep : sepFlagsOk bar.segments = true) :
    ∃ r, updateBar ctx bar (some g) ts = .ok r := by
  cases htags : bar.tags with
  | true =>
    rw [updateBar_gfile_mode_switch ctx bar g ts htags]
    obtain ⟨segs', removedSegs, hres, -, -⟩ :=
      applyDiff_spec ⟨[], false, bar.nextId⟩ (computeSpecs ctx g).1 (computeSpecs ctx g).2 rfl
    exact ⟨_, hres⟩
  | false =>
    rw [updateBar_gfile_same_mode ctx bar g ts htags]
    obtain ⟨segs', removedSegs, hres, -, -⟩ :=
      applyDiff_spec bar (computeSpecs ctx g).1 (computeSpecs ctx g).2 hsep
    exact ⟨_, hres⟩

/-- C8: for a non-local-scheme location whose scheme-root metadata query
fails, the resolver falls back to the enclosing mount's name, icon and URI
as the base segment; if the mount query also fails, no base segment is
produced (the blank fallback), the failure is logged, and the update still
completes normally. -/
theorem metadata_failure_degrades (ctx : Ctx) (g : GFileModel)
    (hscheme : g.scheme ≠ "file") (hroot : g.schemeRootQuery = none)
    (hpath : g.path = none) :
    (∀ m : MountInfo, g.mountQuery = some m → m.uri ≠ "" →
      (computeSpecs ctx g).1 =
        ⟨some m.name, some m.symbolicIcon, some m.uri, none⟩ ::
          partSegs m.uri g.parseParts ∧
      (computeSpecs ctx g).2 = false) ∧
    (g.mountQuery = none →
      (computeSpecs ctx g).1 = partSegs "None" g.parseParts ∧
      (computeSpecs ctx g).2 = true) ∧
    (∀ (bar : PathBar) (ts : List String), sepFlagsOk bar.segments = true →
      ∃ r, updateBar ctx bar (some g) ts = .ok r) := by
  refine ⟨?_, ?_, ?_⟩
  · intro m hm hne
    constructor <;>
      simp [computeSpecs, hscheme, hroot, hm, hpath, fStr, hne]
  · intro hm
    constructor <;>
      simp [computeSpecs, hscheme, hroot, hm, hpath, fStr]
  · intro bar ts hsep
    exact updateBar_gfile_ok ctx bar g ts hsep

/-- C8 witness: a remote location where both the scheme-root and the mount
query fail — the computed tuples carry no base segment, the failure is
logged, and the update completes normally from an empty path-mode bar. -/
theorem metadata_failure_degrades_witness :
    (("sftp" : String) ≠ "file" ∧
      (⟨"sftp://h/a", "sftp", ["", "a"], none, none, none⟩ : GFileModel).schemeRootQuery = none ∧
      (⟨"sftp://h/a", "sftp", ["", "a"], none, none, none⟩ : GFileModel).mountQuery = none ∧
      sepFlagsOk (⟨[], false, 0⟩ : PathBar).segments = true) ∧
    ((computeSpecs ⟨["/"], "file:///"⟩ ⟨"sftp://h/a", "sftp", ["", "a"], none, none, none⟩).1 =
        partSegs "None" ["", "a"] ∧
      (computeSpecs ⟨["/"], "file:///"⟩ ⟨"sftp://h/a", "sftp", ["", "a"], none, none, none⟩).2 = true) ∧
    (∃ r, updateBar ⟨["/"], "file:///"⟩ ⟨[], false, 0⟩
        (some ⟨"sftp://h/a", "sftp", ["", "a"], none, none, none⟩) [] = .ok r) ∧
    partSegs "None" ["", "a"] = [⟨some "a", some "", some "None/a", none⟩] :=
  ⟨⟨by decide, rfl, rfl, rfl⟩,
    (metadata_failure_degrades ⟨["/"], "file:///"⟩
        ⟨"sftp://h/a", "sftp", ["", "a"], none, none, none⟩
        (by decide) rfl rfl).2.1 rfl,
    (metadata_failure_degrades ⟨["/"], "file:///"⟩
        ⟨"sftp://h/a", "sftp", ["", "a"], none, none, none⟩
        (by decide) rfl rfl).2.2 ⟨[], false, 0⟩ [] rfl,
    rfl⟩

theorem activeOk_imp_frontInactive : ∀ l : List Segment,
    activeOk l = true → frontInactive l = true
  | [], _ => rfl
  | [_], _ => rfl
  | a :: b :: rest, h => by
    have h' : (!a.active && activeOk (b :: rest)) = true := h
    simp only [Bool.and_eq_true] at h'
    have ih := activeOk_imp_frontInactive (b :: rest) h'.2
    show (!a.active && frontInactive (b :: rest)) = true
    simp [h'.1, ih]

theorem frontInactive_take : ∀ (l : List Segment) (k : Nat),
    frontInactive l = true → frontInactive (l.take k) = true
  | [], _, _ => by simp [frontInactive]
  | _ :: _, 0, _ => rfl
  | [a], k + 1, h => by
    simp only [List.take_succ_cons, List.take_nil]
    exact h
  | a :: b :: rest, k + 1, h => by
    have h' : (!a.active && frontInactive (b :: rest)) = true := h
    simp only [Bool.and_eq_true] at h'
    have ih := frontInactive_take (b :: rest) k h'.2
    simp only [List.take_succ_cons]
    cases hX : (b :: rest).take k with
    | nil => rfl
    | cons x xs =>
      rw [hX] at ih
      show (!a.active && frontInactive (x :: xs)) = true
      simp [h'.1, ih]

theorem activeOk_repairActive_of_frontInactive : ∀ l : List Segment,
    frontInactive l = true → activeOk (repairActive l) = true
  | [], _ => rfl
  | [_], _ => by simp [repairActive, activeOk]
  | [_, _], _ => by simp [repairActive, activeOk]
  | a :: b :: c :: rest, h => by
    have h' : (!a.active && frontInactive (b :: c :: rest)) = true := h
    simp only [Bool.and_eq_true] at h'
    have ih := activeOk_repairActive_of_frontInactive (b :: c :: rest) h'.2
    show activeOk (a :: repairActive (b :: c :: rest)) = true
    have hlenr : (repairActive (b :: c :: rest)).length = rest.length + 2 := by
      rw [repairActive_length]
      rfl
    cases hX : repairActive (b :: c :: rest) with
    | nil => rw [hX] at hlenr; simp at hlenr
    | cons x xs =>
      rw [hX] at ih
      show (!a.active && activeOk (x :: xs)) = true
      simp [h'.1, ih]

theorem activeOk_repair_append : ∀ (l : List Segment) (s : Segment),
    activeOk l = true → activeOk (repairActive (l ++ [s])) = true
  | [], s, _ => by simp [repairActive, activeOk]
  | [a], s, _ => by simp [repairActive, activeOk]
  | a :: b :: rest, s, h => by
    have h' : (!a.active && activeOk (b :: rest)) = true := h
    simp only [Bool.and_eq_true] at h'
    have ih := activeOk_repair_append (b :: rest) s h'.2
    have hshape : (a :: b :: rest) ++ [s] = a :: ((b :: rest) ++ [s]) := rfl
    rw [hshape]
    have hlenr : ((b :: rest) ++ [s]).length = rest.length + 2 := by simp
    show activeOk (repairActive (a :: ((b :: rest) ++ [s]))) = true
    have hred : repairActive (a :: ((b :: rest) ++ [s])) =
        a :: repairActive ((b :: rest) ++ [s]) := by
      cases rest with
      | nil => rfl
      | cons c rest2 => rfl
    rw [hred]
    have hlenr2 : (repairActive ((b :: rest) ++ [s])).length = rest.length + 2 := by
      rw [repairActive_length, hlenr]
    cases hX : repairActive ((b :: rest) ++ [s]) with
    | nil => rw [hX] at hlenr2; simp at hlenr2
    | cons x xs =>
      rw [hX] at ih
      show (!a.active && activeOk (x :: xs)) = true
      simp [h'.1, ih]

theorem foldl_appendSeg_activeOk : ∀ (specs : List SegSpec) (bar : PathBar),
    bar.tags = false → activeOk bar.segments = true →
    activeOk ((specs.foldl appendSeg bar)).segments = true := by
  intro specs
  induction specs with
  | nil => intro bar _ ha; exact ha
  | cons spec rest ih =>
    intro bar htags ha
    show activeOk ((rest.foldl appendSeg (appendSeg bar spec))).segments = true
    have htags2 : (appendSeg bar spec).tags = bar.tags := (appendSeg_segData bar spec).2.1
    apply ih (appendSeg bar spec) (by rw [htags2, htags])
    show activeOk (appendSeg bar spec).segments = true
    unfold appendSeg
    rw [htags]
    simp only [Bool.false_eq_true, if_false]
    exact activeOk_repair_append bar.segments _ ha

theorem repairActive_take_activeOk {l : List Segment} (ha : activeOk l = true)
    (k : Nat) : activeOk (repairActive (l.take k)) = true :=
  activeOk_repairActive_of_frontInactive _
    (frontInactive_take l k (activeOk_imp_frontInactive l ha))

theorem removeSegs_activeOk (bar : PathBar) (n : Nat) (htags : bar.tags = false)
    (hsep : sepFlagsOk bar.segments = true) (ha : activeOk bar.segments = true)
    (res : PathBar × List Segment) (hres : removeSegs bar n = .ok res) :
    activeOk res.1.segments = true := by
  by_cases h0 : bar.segments = [] → n = 0
  · rw [removeSegs_spec bar n hsep h0] at hres
    have h1 := Except.ok.inj hres
    have h2 : res.1.segments = (if bar.tags then id else repairActive)
        (bar.segments.take (bar.segments.length - n)) := by
      rw [← h1]
    rw [h2, htags]
    simp only [Bool.false_eq_true, if_false]
    exact repairActive_take_activeOk ha _
  · push_neg at h0
    obtain ⟨hseg, hn⟩ := h0
    cases n with
    | zero => exact absurd rfl hn
    | succ m =>
      rw [show removeSegs bar (m + 1) = .error .indexError from by
        unfold removeSegs removeLoop
        rw [hseg]
        rfl] at hres
      exact absurd hres (by simp)

theorem diffLoop_activeOk : ∀ (specs : List SegSpec) (bar : PathBar) (idx : Nat),
    bar.tags = false → sepFlagsOk bar.segments = true → activeOk bar.segments = true →
    idx ≤ bar.segments.length →
    ∀ res, diffLoop bar idx false specs = .ok res → activeOk res.1.segments = true := by
  intro specs
  induction specs with
  | nil =>
    intro bar idx htags hsep ha hidx res hres
    have h1 := Except.ok.inj hres
    rw [← h1]
    exact ha
  | cons spec rest ih =>
    intro bar idx htags hsep ha hidx res hres
    cases hm : (match bar.segments[idx]? with
        | some o => spec.uri == o.uri && spec.tag == o.tag
        | none => false) with
    | true =>
      have hlt : idx < bar.segments.length := by
        cases hget : bar.segments[idx]? with
        | none => rw [hget] at hm; exact absurd hm (by simp)
        | some o =>
          have := List.getElem?_eq_some.mp hget
          exact this.1
      have hstep : diffLoop bar idx false (spec :: rest) =
          diffLoop bar (idx + 1) false rest := by
        simp only [diffLoop, Bool.not_false, Bool.true_and, hm, if_true]
      rw [hstep] at hres
      exact ih bar (idx + 1) htags hsep ha hlt res hres
    | false =>
      rw [diffLoop_mismatch bar idx spec rest hsep hidx hm] at hres
      have h1 := Except.ok.inj hres
      have h2 : res.1 = (spec :: rest).foldl appendSeg
          ⟨(if bar.tags then id else repairActive) (bar.segments.take idx),
            bar.tags, bar.nextId⟩ := by
        rw [← h1]
      rw [h2]
      refine foldl_appendSeg_activeOk (spec :: rest)
        ⟨(if bar.tags then id else repairActive) (bar.segments.take idx),
          bar.tags, bar.nextId⟩ htags ?_
      show activeOk ((if bar.tags then id else repairActive)
        (bar.segments.take idx)) = true
      rw [htags]
      simp only [Bool.false_eq_true, if_false]
      exact repairActive_take_activeOk ha _

theorem applyDiff_activeOk (bar : PathBar) (specs : List SegSpec) (logged : Bool)
    (htags : bar.tags = false) (hsep : sepFlagsOk bar.segments = true)
    (ha : activeOk bar.segments = true) :
    ∀ res, applyDiff bar specs logged = .ok res → activeOk res.1.segments = true := by
  intro res hres
  have happ : applyDiff bar specs logged =
      (match (if specs.length < bar.segments.length then
          removeSegs bar (bar.segments.length - specs.length)
        else Except.ok (bar, [])) with
      | Except.error e => Except.error e
      | Except.ok (bar₁, removed₀) =>
        match diffLoop bar₁ 0 false specs with
        | Except.error e => Except.error e
        | Except.ok (bar₂, removed₁, appended) =>
          Except.ok (bar₂, (⟨removed₀ ++ removed₁, appended, logged⟩ : BarTrace))) := rfl
  by_cases hc : specs.length < bar.segments.length
  · have h0 : bar.segments = [] → bar.segments.length - specs.length = 0 := by
      intro h
      rw [h] at hc
      simp at hc
    have happ2 : applyDiff bar specs logged =
        (match diffLoop ⟨(if bar.tags then id else repairActive)
            (bar.segments.take (bar.segments.length - (bar.segments.length - specs.length))),
            bar.tags, bar.nextId⟩ 0 false specs with
        | Except.error e => Except.error e
        | Except.ok (bar₂, removed₁, appended) =>
          Except.ok (bar₂, (⟨(bar.segments.drop
              (bar.segments.length - (bar.segments.length - specs.length))).reverse ++ removed₁,
            appended, logged⟩ : BarTrace))) := by
      rw [happ, if_pos hc, removeSegs_spec bar _ hsep h0]
    have hmap : ((if bar.tags then id else repairActive)
        (bar.segments.take (bar.segments.length - (bar.segments.length - specs.length)))).map
          segData =
        (bar.segments.take (bar.segments.length - (bar.segments.length - specs.length))).map
          segData := by
      cases bar.tags with
      | true => simp
      | false => simp [repairActive_map_segData]
    cases hdl : diffLoop ⟨(if bar.tags then id else repairActive)
        (bar.segments.take (bar.segments.length - (bar.segments.length - specs.length))),
        bar.tags, bar.nextId⟩ 0 false specs with
    | error e =>
      rw [happ2, hdl] at hres
      exact absurd hres (by simp)
    | ok trip =>
      obtain ⟨bar₂, rem₁, app⟩ := trip
      have hre : applyDiff bar specs logged = .ok (bar₂, ⟨(bar.segments.drop
          (bar.segments.length - (bar.segments.length - specs.length))).reverse ++ rem₁,
          app, logged⟩) := by
        rw [happ2, hdl]
      rw [hre] at hres
      have h1 := Except.ok.inj hres
      have h2 : res.1 = bar₂ := by rw [← h1]
      rw [h2]
      refine diffLoop_activeOk specs ⟨(if bar.tags then id else repairActive)
          (bar.segments.take (bar.segments.length - (bar.segments.length - specs.length))),
          bar.tags, bar.nextId⟩ 0 htags ?_ ?_ (Nat.zero_le _) (bar₂, rem₁, app) hdl
      · show sepFlagsOk ((if bar.tags then id else repairActive) _) = true
        rw [sepFlagsOk_eq_of_map_segData hmap]
        exact sepFlagsOk_take hsep _
      · show activeOk ((if bar.tags then id else repairActive) _) = true
        rw [htags]
        simp only [Bool.false_eq_true, if_false]
        exact repairActive_take_activeOk ha _
  · have happ2 : applyDiff bar specs logged =
        (match diffLoop bar 0 false specs with
        | Except.error e => Except.error e
        | Except.ok (bar₂, removed₁, appended) =>
          Except.ok (bar₂, (⟨[] ++ removed₁, appended, logged⟩ : BarTrace))) := by
      rw [happ, if_neg hc]
    cases hdl : diffLoop bar 0 false specs with
    | error e =>
      rw [happ2, hdl] at hres
      exact absurd hres (by simp)
    | ok trip =>
      obtain ⟨bar₂, rem₁, app⟩ := trip
      have hre : applyDiff bar specs logged = .ok (bar₂, ⟨[] ++ rem₁, app, logged⟩) := by
        rw [happ2, hdl]
      rw [hre] at hres
      have h1 := Except.ok.inj hres
      have h2 : res.1 = bar₂ := by rw [← h1]
      rw [h2]
      exact diffLoop_activeOk specs bar 0 htags hsep ha (Nat.zero_le _) (bar₂, rem₁, app) hdl

/-- C9: in path mode, `append` and `remove` leave exactly the final segment
of a non-empty displayed list marked active (vacuously the empty list), and
this invariant is preserved across every path-mode update. -/
theorem pathmode_last_segment_active :
    (∀ (bar : PathBar) (spec : SegSpec), bar.tags = false →
      activeOk bar.segments = true → activeOk (appendSeg bar spec).segments = true) ∧
    (∀ (bar : PathBar) (n : Nat) (res : PathBar × List Segment),
      bar.tags = false → sepFlagsOk bar.segments = true →
      activeOk bar.segments = true → removeSegs bar n = .ok res →
      activeOk res.1.segments = true) ∧
    (∀ (ctx : Ctx) (bar : PathBar) (g : GFileModel) (ts : List String)
        (res : PathBar × BarTrace),
      sepFlagsOk bar.segments = true →
      (bar.tags = false → activeOk bar.segments = true) →
      updateBar ctx bar (some g) ts = .ok res →
      activeOk res.1.segments = true) := by
  refine ⟨?app, ?rem, ?upd⟩
  case app =>
    intro bar spec htags ha
    unfold appendSeg
    rw [htags]
    simp only [Bool.false_eq_true, if_false]
    exact activeOk_repair_append bar.segments _ ha
  case rem =>
    intro bar n res htags hsep ha hres
    exact removeSegs_activeOk bar n htags hsep ha res hres
  case upd =>
    intro ctx bar g ts res hsep ha hres
    cases htags : bar.tags with
    | true =>
      rw [updateBar_gfile_mode_switch ctx bar g ts htags] at hres
      exact applyDiff_activeOk ⟨[], false, bar.nextId⟩ _ _ rfl rfl rfl res hres
    | false =>
      rw [updateBar_gfile_same_mode ctx bar g ts htags] at hres
      exact applyDiff_activeOk bar _ _ htags hsep (ha htags) res hres

/-- C9 witness: a path-mode bar with one active segment updated to a
two-segment location — afterwards exactly the final segment is active. -/
theorem pathmode_last_segment_active_witness :
    (sepFlagsOk (⟨[⟨0, some "A", some "", some "file:///a", none, true, false⟩],
        false, 1⟩ : PathBar).segments = true ∧
      activeOk (⟨[⟨0, some "A", some "", some "file:///a", none, true, false⟩],
        false, 1⟩ : PathBar).segments = true ∧
      updateBar ⟨["/", "home", "u"], "file:///home/u"⟩
          ⟨[⟨0, some "A", some "", some "file:///a", none, true, false⟩], false, 1⟩
          (some ⟨"file:///a", "file", ["", "a"], some ["/", "a"], none, none⟩) [] =
        .ok (⟨[⟨1, some "", some "drive-harddisk-symbolic", some "file:///", none, false, false⟩,
            ⟨2, some "a", some "", some "file:///a", none, true, true⟩], false, 3⟩,
          ⟨[⟨0, some "A", some "", some "file:///a", none, true, false⟩],
            [⟨some "", some "drive-harddisk-symbolic", some "file:///", none⟩,
              ⟨some "a", some "", some "file:///a", none⟩], false⟩)) ∧
    activeOk ((⟨[⟨1, some "", some "drive-harddisk-symbolic", some "file:///", none, false, false⟩,
        ⟨2, some "a", some "", some "file:///a", none, true, true⟩], false, 3⟩ : PathBar),
      (⟨[⟨0, some "A", some "", some "file:///a", none, true, false⟩],
        [⟨some "", some "drive-harddisk-symbolic", some "file:///", none⟩,
          ⟨some "a", some "", some "file:///a", none⟩], false⟩ : BarTrace)).1.segments = true :=
  ⟨⟨by decide, by decide, rfl⟩,
    pathmode_last_segment_active.2.2 ⟨["/", "home", "u"], "file:///home/u"⟩
      ⟨[⟨0, some "A", some "", some "file:///a", none, true, false⟩], false, 1⟩
      ⟨"file:///a", "file", ["", "a"], some ["/", "a"], none, none⟩ []
      (⟨[⟨1, some "", some "drive-harddisk-symbolic", some "file:///", none, false, false⟩,
          ⟨2, some "a", some "", some "file:///a", none, true, true⟩], false, 3⟩,
        ⟨[⟨0, some "A", some "", some "file:///a", none, true, false⟩],
          [⟨some "", some "drive-harddisk-symbolic", some "file:///", none⟩,
            ⟨some "a", some "", some "file:///a", none⟩], false⟩)
      (by decide) (fun _ => by decide) rfl⟩
